import Mathlib

/-!
Verification of the LLM response parsing / validation / normalization pipeline
of the PediBrief discharge-summary application (`processDischargeSummary`,
`gradeQuizAnswer` and their helpers).

The JavaScript code is shallowly embedded:
* JSON values are modelled by the inductive `Json` (JSON numbers are modelled
  as integers; fractional numbers are outside the model),
* strings are modelled as `List Char`,
* JavaScript dynamic-type errors (calling `.trim()` / `.slice()` / `.filter()`
  on a value of the wrong type) are modelled by `Option`-valued functions
  returning `none`,
* the response text extraction (fence stripping, depth-balanced brace scan),
  the schema coercion, the quiz sanitizer and the grading fallback are
  translated line by line from the source.
-/

namespace PediBrief

/-- The characters `{`, `}` and the backtick, written via their code points. -/
def lbrace : Char := Char.ofNat 123

/-- The closing brace character. -/
def rbrace : Char := Char.ofNat 125

/-- The backtick character used by markdown fences. -/
def btick : Char := Char.ofNat 96

/-- JavaScript `\s` whitespace (the ASCII part, which is what the code's
fence-stripping regexes rely on). -/
def isJsWs (c : Char) : Bool :=
  c = ' ' || c = '\t' || c = '\n' || c = '\r' || c = Char.ofNat 11 || c = Char.ofNat 12

/-- Model of a JSON value.  Numbers are modelled as integers (`Int`): the
pipeline only ever inspects numbers through `Number.isInteger` and integer
comparisons, so fractional numbers are not needed by any claim. -/
inductive Json where
  | null : Json
  | bool (b : Bool) : Json
  | num (n : Int) : Json
  | str (s : List Char) : Json
  | arr (xs : List Json) : Json
  | obj (fs : List (List Char × Json)) : Json

mutual

/-- Boolean equality on `Json` (the automatic derivation does not handle the
nested induction, so it is spelled out). -/
def jsonBEq : Json → Json → Bool
  | .null, .null => true
  | .bool a, .bool b => a = b
  | .num a, .num b => a = b
  | .str a, .str b => a = b
  | .arr a, .arr b => jsonBEqL a b
  | .obj a, .obj b => jsonBEqF a b
  | _, _ => false

/-- Boolean equality on lists of `Json`. -/
def jsonBEqL : List Json → List Json → Bool
  | [], [] => true
  | x :: xs, y :: ys => jsonBEq x y && jsonBEqL xs ys
  | _, _ => false

/-- Boolean equality on lists of `Json` object members. -/
def jsonBEqF : List (List Char × Json) → List (List Char × Json) → Bool
  | [], [] => true
  | (k, v) :: xs, (k', v') :: ys => k = k' && jsonBEq v v' && jsonBEqF xs ys
  | _, _ => false

end

mutual

theorem jsonBEq_iff : ∀ a b : Json, jsonBEq a b = true ↔ a = b
  | .null, b => by cases b <;> simp [jsonBEq]
  | .bool a, b => by cases b <;> simp [jsonBEq]
  | .num a, b => by cases b <;> simp [jsonBEq]
  | .str a, b => by cases b <;> simp [jsonBEq]
  | .arr a, b => by
      cases b with
      | null => simp [jsonBEq]
      | bool c => simp [jsonBEq]
      | num n => simp [jsonBEq]
      | str s => simp [jsonBEq]
      | arr ys => simpa [jsonBEq] using jsonBEqL_iff a ys
      | obj fs => simp [jsonBEq]
  | .obj a, b => by
      cases b with
      | null => simp [jsonBEq]
      | bool c => simp [jsonBEq]
      | num n => simp [jsonBEq]
      | str s => simp [jsonBEq]
      | arr ys => simp [jsonBEq]
      | obj fs => simpa [jsonBEq] using jsonBEqF_iff a fs

theorem jsonBEqL_iff : ∀ a b : List Json, jsonBEqL a b = true ↔ a = b
  | [], b => by cases b <;> simp [jsonBEqL]
  | x :: xs, b => by
      cases b with
      | nil => simp [jsonBEqL]
      | cons y ys =>
        simp only [jsonBEqL, Bool.and_eq_true, List.cons.injEq]
        rw [jsonBEq_iff x y, jsonBEqL_iff xs ys]

theorem jsonBEqF_iff : ∀ a b : List (List Char × Json), jsonBEqF a b = true ↔ a = b
  | [], b => by cases b <;> simp [jsonBEqF]
  | (k, v) :: xs, b => by
      cases b with
      | nil => simp [jsonBEqF]
      | cons y ys =>
        obtain ⟨k', v'⟩ := y
        simp only [jsonBEqF, Bool.and_eq_true, decide_eq_true_eq, List.cons.injEq,
          Prod.mk.injEq]
        rw [jsonBEq_iff v v', jsonBEqF_iff xs ys]

end

instance : DecidableEq Json := fun a b =>
  decidable_of_iff (jsonBEq a b = true) (jsonBEq_iff a b)

/-- Decimal digit character for `d < 10`. -/
def digitChar (d : Nat) : Char :=
  match d with
  | 0 => '0' | 1 => '1' | 2 => '2' | 3 => '3' | 4 => '4'
  | 5 => '5' | 6 => '6' | 7 => '7' | 8 => '8' | _ => '9'

/-- Decimal digits of a positive natural, most significant first
(accumulator form). -/
def natDigitsGo (n : Nat) (acc : List Char) : List Char :=
  if h : n = 0 then acc
  else natDigitsGo (n / 10) (digitChar (n % 10) :: acc)
decreasing_by exact Nat.div_lt_self (Nat.pos_of_ne_zero h) (by decide)

/-- Decimal representation of a natural number. -/
def natDigits (n : Nat) : List Char :=
  if n = 0 then ['0'] else natDigitsGo n []

/-- Decimal representation of an integer (as `JSON.stringify` prints it). -/
def intChars (n : Int) : List Char :=
  if n < 0 then '-' :: natDigits n.natAbs else natDigits n.natAbs

/-- `JSON.stringify` escaping of a single character inside a string literal
(the escapes the serializer in this model emits: quote, backslash, `\n`,
`\r`, `\t`). -/
def escChar (c : Char) : List Char :=
  if c = '"' then ['\\', '"']
  else if c = '\\' then ['\\', '\\']
  else if c = '\n' then ['\\', 'n']
  else if c = '\r' then ['\\', 'r']
  else if c = '\t' then ['\\', 't']
  else [c]

/-- Serialization of a JSON string literal, quotes included. -/
def serStr (s : List Char) : List Char :=
  '"' :: (s.flatMap escChar ++ ['"'])

mutual

/-- `JSON.stringify` on the model: no whitespace, fields in order. -/
def serialize : Json → List Char
  | .null => "null".toList
  | .bool true => "true".toList
  | .bool false => "false".toList
  | .num n => intChars n
  | .str s => serStr s
  | .arr xs => '[' :: (serArr xs ++ [']'])
  | .obj fs => lbrace :: (serObj fs ++ [rbrace])

/-- Array elements, comma separated. -/
def serArr : List Json → List Char
  | [] => []
  | [x] => serialize x
  | x :: y :: xs => serialize x ++ ',' :: serArr (y :: xs)

/-- Object members, comma separated. -/
def serObj : List (List Char × Json) → List Char
  | [] => []
  | [(k, v)] => serStr k ++ ':' :: serialize v
  | (k, v) :: m :: fs => serStr k ++ ':' :: serialize v ++ ',' :: serObj (m :: fs)

end

/-! ### Response text extraction (`processDischargeSummary`, fence stripping
and depth-balanced brace scan) -/

/-- Model of `jsonText.replace(/^```json\s*/i, "")`: if the text starts with
three backticks followed by `json` in any case, drop them and the following
whitespace run (the regex is anchored at the start of the string). -/
def stripFenceOpenJson (cs : List Char) : List Char :=
  if cs.take 3 = [btick, btick, btick] ∧
      ((cs.drop 3).take 4).map Char.toLower = ['j', 's', 'o', 'n'] then
    (cs.drop 7).dropWhile isJsWs
  else cs

/-- Model of `jsonText.replace(/^```\s*/i, "")`. -/
def stripFenceOpen3 (cs : List Char) : List Char :=
  if cs.take 3 = [btick, btick, btick] then (cs.drop 3).dropWhile isJsWs
  else cs

/-- End-of-line position for the `m`-flagged `$` anchor: end of the string or
just before a line terminator. -/
def atLineEnd : List Char → Bool
  | [] => true
  | c :: _ => c = '\n' || c = '\r'

/-- Does `\s*```$` match starting at the head of `cs`?  When it does, return
the text that follows the matched part.  The `\s*` is greedy, and because a
backtick is not whitespace the greedy run is the only candidate. -/
def matchCloseAt (cs : List Char) : Option (List Char) :=
  if (cs.dropWhile isJsWs).take 3 = [btick, btick, btick] ∧
      atLineEnd ((cs.dropWhile isJsWs).drop 3) = true then
    some ((cs.dropWhile isJsWs).drop 3)
  else none

/-- Model of `jsonText.replace(/\s*```$/m, "")`: remove the leftmost match of
`\s*```` that sits at an end of line, if any. -/
def replaceCloseFence : List Char → List Char
  | [] => []
  | c :: cs =>
    match matchCloseAt (c :: cs) with
    | some remainder => remainder
    | none => c :: replaceCloseFence cs

/-- The fence stripping of `processDischargeSummary` lines 271-272, in source
order: strip a ````json` opening fence, a closing fence, a bare ```` opening
fence, and a closing fence again. -/
def stripFences (cs : List Char) : List Char :=
  replaceCloseFence (stripFenceOpen3 (replaceCloseFence (stripFenceOpenJson cs)))

/-- The two failure modes of the JSON-locating step. -/
inductive JsonLocErr where
  | noJsonFound : JsonLocErr
  | incompleteJson : JsonLocErr
deriving DecidableEq

/-- The brace-counting loop of `processDischargeSummary` lines 281-292:
starting with counter `count`, scan forward; `{` increments, `}` decrements,
and the scan stops at the first `}` that brings the counter to zero,
returning its offset.  Braces inside string literals are counted like any
others, exactly as in the source. -/
def scanClose : List Char → Int → Option Nat
  | [], _ => none
  | c :: rest, count =>
    let count' := if c = lbrace then count + 1 else if c = rbrace then count - 1 else count
    if c = rbrace ∧ count' = 0 then some 0
    else (scanClose rest count').map (· + 1)

/-- Second half of the JSON-locating step, with the index of the first `{`
already found: scan for the matching `}` and return the enclosed substring
(`jsonText.substring(firstBrace, lastBrace + 1)`); `lastBrace <= firstBrace`
is the `off = 0` case. -/
def extractStep2 (cs : List Char) (first : Nat) : Except JsonLocErr (List Char) :=
  match scanClose (cs.drop first) 0 with
  | none => .error .incompleteJson
  | some off =>
    if off = 0 then .error .incompleteJson
    else .ok ((cs.drop first).take (off + 1))

/-- Locate the JSON object in already-fence-stripped text: find the first
`{`, scan for its matching `}`, and return the enclosed substring. -/
def extractJsonCore (cs : List Char) : Except JsonLocErr (List Char) :=
  match cs.findIdx? (· = lbrace) with
  | none => .error .noJsonFound
  | some first => extractStep2 cs first

/-- The full JSON-locating step of `processDischargeSummary` lines 268-298:
fence stripping followed by the depth-balanced brace scan. -/
def extractJson (cs : List Char) : Except JsonLocErr (List Char) :=
  extractJsonCore (stripFences cs)

/-! ### Brace balance of serialized JSON -/

/-- Contribution of one character to the brace counter. -/
def delta (c : Char) : Int :=
  if c = lbrace then 1 else if c = rbrace then -1 else 0

/-- Brace balance of a character list (opening minus closing braces). -/
def bal : List Char → Int
  | [] => 0
  | c :: cs => delta c + bal cs

theorem bal_append (a b : List Char) : bal (a ++ b) = bal a + bal b := by
  induction a with
  | nil => simp [bal]
  | cons c a ih => simp [bal, ih]; ring

/-- A balanced block: total balance zero and no prefix dips below zero. -/
def Bal0 (cs : List Char) : Prop :=
  bal cs = 0 ∧ ∀ n, 0 ≤ bal (cs.take n)

theorem bal0_nil : Bal0 [] := by constructor <;> simp [bal]

theorem bal_of_noBrace (cs : List Char) (h : ∀ c ∈ cs, c ≠ lbrace ∧ c ≠ rbrace) :
    bal cs = 0 := by
  induction cs with
  | nil => rfl
  | cons c cs ih =>
    have hc := h c (by simp)
    simp only [bal, delta, if_neg hc.1, if_neg hc.2]
    simpa using ih fun x hx => h x (by simp [hx])

theorem bal0_of_noBrace (cs : List Char) (h : ∀ c ∈ cs, c ≠ lbrace ∧ c ≠ rbrace) :
    Bal0 cs := by
  refine ⟨bal_of_noBrace cs h, fun n => ?_⟩
  have : bal (cs.take n) = 0 :=
    bal_of_noBrace _ fun c hc => h c (List.take_subset n cs hc)
  omega

theorem bal0_append (a b : List Char) (ha : Bal0 a) (hb : Bal0 b) : Bal0 (a ++ b) := by
  refine ⟨by rw [bal_append, ha.1, hb.1]; ring, fun n => ?_⟩
  rw [List.take_append_eq_append_take, bal_append]
  have h1 := ha.2 n
  have h2 := hb.2 (n - a.length)
  omega

theorem delta_lbrace : delta lbrace = 1 := by simp [delta]

theorem delta_rbrace : delta rbrace = -1 := by
  have h : rbrace ≠ lbrace := by decide
  simp [delta, h]

/-- Wrapping a balanced block in braces keeps it balanced. -/
theorem bal0_braces (l : List Char) (h : Bal0 l) :
    Bal0 (lbrace :: (l ++ [rbrace])) := by
  have hbal : bal (lbrace :: (l ++ [rbrace])) = 0 := by
    simp only [bal, bal_append, delta_lbrace, delta_rbrace, h.1]
    omega
  refine ⟨hbal, fun n => ?_⟩
  match n with
  | 0 => simp [bal]
  | Nat.succ m =>
    rw [List.take_succ_cons]
    simp only [bal, delta_lbrace]
    rw [List.take_append_eq_append_take, bal_append]
    have h1 := h.2 m
    have h2 : bal (List.take (m - l.length) [rbrace]) = 0 ∨
        bal (List.take (m - l.length) [rbrace]) = -1 := by
      rcases Nat.eq_zero_or_pos (m - l.length) with hm | hm
      · left; rw [hm]; simp [bal]
      · right
        have htake : List.take (m - l.length) [rbrace] = [rbrace] := by
          apply List.take_of_length_le
          simp only [List.length_singleton]
          omega
        rw [htake]
        simp only [bal, delta_rbrace]
        omega
    omega

theorem bal_cons (c : Char) (cs : List Char) : bal (c :: cs) = delta c + bal cs := rfl

theorem scanClose_cons (c : Char) (rest : List Char) (count : Int) :
    scanClose (c :: rest) count =
      (if c = rbrace ∧ count + delta c = 0 then some 0
       else (scanClose rest (count + delta c)).map (· + 1)) := by
  have hrl : rbrace ≠ lbrace := by decide
  have harg : (if c = lbrace then count + 1 else if c = rbrace then count - 1 else count)
      = count + delta c := by
    by_cases h1 : c = lbrace
    · simp [delta, h1]
    · by_cases h2 : c = rbrace
      · simp [delta, h1, h2, hrl]; ring
      · simp [delta, h1, h2]
  rw [scanClose, harg]

/-- If `S` is strictly positive on every proper nonempty prefix (counting from
`c`), closes to zero, and ends in `}`, the brace-counting loop run over
`S ++ rest` stops exactly at the last character of `S`. -/
theorem scanClose_append (S : List Char) (rest : List Char) (c : Int)
    (hne : S ≠ [])
    (hstrict : ∀ n, 0 < n → n < S.length → 0 < c + bal (S.take n))
    (hzero : c + bal S = 0)
    (hlast : S.getLast? = some rbrace) :
    scanClose (S ++ rest) c = some (S.length - 1) := by
  induction S generalizing c with
  | nil => exact absurd rfl hne
  | cons a S' ih =>
    rw [List.cons_append, scanClose_cons]
    match hS' : S' with
    | [] =>
      have ha : a = rbrace := by simpa using hlast
      have hc : c + delta a = 0 := by
        rw [bal_cons] at hzero
        simp only [bal] at hzero
        omega
      rw [if_pos ⟨ha, hc⟩]
      rfl
    | b :: S'' =>
      have hpos : 0 < c + delta a := by
        have h1 := hstrict 1 (by omega) (by simp only [List.length_cons]; omega)
        rw [show List.take 1 (a :: b :: S'') = [a] from rfl] at h1
        rw [show bal [a] = delta a + 0 from rfl] at h1
        omega
      rw [if_neg (by intro hcontra; omega)]
      have hres := ih (c + delta a) (by simp) ?hs ?hz ?hl
      case hs =>
        intro n hn hlen
        have h2 := hstrict (n + 1) (by omega) (by simp only [List.length_cons] at hlen ⊢; omega)
        rw [List.take_succ_cons, bal_cons] at h2
        omega
      case hz =>
        rw [bal_cons] at hzero
        omega
      case hl => simpa using hlast
      rw [hres]
      simp only [Option.map_some', List.length_cons, Option.some.injEq]
      omega

/-- The brace scan applied to a serialized object followed by anything: it
stops at the object's final `}`. -/
theorem scanClose_obj (l : List Char) (rest : List Char) (h : Bal0 l) :
    scanClose ((lbrace :: (l ++ [rbrace])) ++ rest) 0 = some (l.length + 1) := by
  have hmain := scanClose_append (lbrace :: (l ++ [rbrace])) rest 0 (by simp) ?hs ?hz ?hl
  case hs =>
    intro n hn hlt
    simp only [List.length_cons, List.length_append, List.length_singleton, List.length_nil] at hlt
    obtain ⟨m, rfl⟩ : ∃ m, n = m + 1 := ⟨n - 1, by omega⟩
    rw [List.take_succ_cons, bal_cons, delta_lbrace]
    rw [List.take_append_eq_append_take]
    have hm0 : m - l.length = 0 := by omega
    rw [hm0, List.take_zero, List.append_nil]
    have h1 := h.2 m
    omega
  case hz =>
    simp only [bal_cons, bal_append, delta_lbrace, delta_rbrace, h.1]
    simp only [bal]
    omega
  case hl =>
    rw [show lbrace :: (l ++ [rbrace]) = (lbrace :: l) ++ [rbrace] by simp]
    exact List.getLast?_concat _
  rw [hmain]
  simp only [List.length_cons, List.length_append, List.length_singleton, List.length_nil, Option.some.injEq]
  omega

/-! ### Serialized JSON whose strings avoid braces and backticks -/

/-- A character that is not a brace and not a backtick. -/
def charBB (c : Char) : Bool := !(c = lbrace) && !(c = rbrace) && !(c = btick)

mutual

/-- Every string literal of the value (keys and string values) consists of
characters satisfying `P`. -/
def strsAll (P : Char → Bool) : Json → Bool
  | .null => true
  | .bool _ => true
  | .num _ => true
  | .str s => s.all P
  | .arr xs => strsAllL P xs
  | .obj fs => strsAllF P fs

/-- `strsAll` over a list of values. -/
def strsAllL (P : Char → Bool) : List Json → Bool
  | [] => true
  | x :: xs => strsAll P x && strsAllL P xs

/-- `strsAll` over object members. -/
def strsAllF (P : Char → Bool) : List (List Char × Json) → Bool
  | [] => true
  | (k, v) :: fs => k.all P && strsAll P v && strsAllF P fs

end

theorem charBB_spec (c : Char) (h : charBB c = true) :
    (c ≠ lbrace ∧ c ≠ rbrace) ∧ c ≠ btick := by
  simp only [charBB, Bool.and_eq_true, Bool.not_eq_true', decide_eq_false_iff_not] at h
  tauto

/-- A brace-balanced block containing no backtick. -/
def GoodBlock (cs : List Char) : Prop :=
  Bal0 cs ∧ ∀ c ∈ cs, c ≠ btick

theorem goodBlock_nil : GoodBlock [] := ⟨bal0_nil, by simp⟩

theorem goodBlock_append (a b : List Char) (ha : GoodBlock a) (hb : GoodBlock b) :
    GoodBlock (a ++ b) := by
  refine ⟨bal0_append a b ha.1 hb.1, fun c hc => ?_⟩
  rcases List.mem_append.mp hc with h | h
  · exact ha.2 c h
  · exact hb.2 c h

theorem goodBlock_of_chars (cs : List Char)
    (h : ∀ c ∈ cs, (c ≠ lbrace ∧ c ≠ rbrace) ∧ c ≠ btick) : GoodBlock cs :=
  ⟨bal0_of_noBrace cs fun c hc => (h c hc).1, fun c hc => (h c hc).2⟩

theorem goodBlock_cons (c : Char) (l : List Char)
    (hc : (c ≠ lbrace ∧ c ≠ rbrace) ∧ c ≠ btick) (h : GoodBlock l) :
    GoodBlock (c :: l) := by
  rw [show c :: l = [c] ++ l from rfl]
  exact goodBlock_append _ _ (goodBlock_of_chars _ (by simpa using hc)) h

theorem goodBlock_braces (l : List Char) (h : GoodBlock l) :
    GoodBlock (lbrace :: (l ++ [rbrace])) := by
  refine ⟨bal0_braces l h.1, fun c hc => ?_⟩
  simp only [List.mem_cons, List.mem_append, List.mem_singleton] at hc
  rcases hc with rfl | hc | rfl | hx
  · decide
  · exact h.2 c hc
  · decide
  · exact absurd hx (by simp)

theorem escChar_mem (a c : Char) (h : c ∈ escChar a) :
    c = a ∨ c ∈ ['\\', '"', 'n', 'r', 't'] := by
  unfold escChar at h
  split_ifs at h <;> simp_all <;> tauto

theorem serStr_chars (s : List Char) (h : s.all charBB = true) :
    ∀ c ∈ serStr s, (c ≠ lbrace ∧ c ≠ rbrace) ∧ c ≠ btick := by
  intro c hc
  simp only [serStr, List.mem_cons, List.mem_append, List.mem_singleton] at hc
  have hc : c = '"' ∨ c ∈ s.flatMap escChar ∨ c = '"' := by tauto
  rcases hc with rfl | hc | rfl
  · decide
  · rcases List.mem_flatMap.mp hc with ⟨a, ha, hca⟩
    have hA := List.all_eq_true.mp h a ha
    rcases escChar_mem a c hca with rfl | hm
    · exact charBB_spec c hA
    · have : c = '\\' ∨ c = '"' ∨ c = 'n' ∨ c = 'r' ∨ c = 't' := by simpa using hm
      rcases this with rfl | rfl | rfl | rfl | rfl <;> decide
  · decide

theorem digitChar_mem (d : Nat) :
    digitChar d ∈ ['0', '1', '2', '3', '4', '5', '6', '7', '8', '9'] := by
  unfold digitChar
  split <;> simp

theorem natDigitsGo_sub (n : Nat) (acc : List Char) :
    ∀ c ∈ natDigitsGo n acc,
      c ∈ ['0', '1', '2', '3', '4', '5', '6', '7', '8', '9'] ∨ c ∈ acc := by
  induction n using Nat.strong_induction_on generalizing acc with
  | _ n ih =>
    intro c hc
    by_cases h0 : n = 0
    · rw [natDigitsGo, dif_pos h0] at hc
      right; exact hc
    · rw [natDigitsGo, dif_neg h0] at hc
      rcases ih (n / 10) (Nat.div_lt_self (Nat.pos_of_ne_zero h0) (by decide))
          (digitChar (n % 10) :: acc) c hc with h | h
      · left; exact h
      · rcases List.mem_cons.mp h with h' | h'
        · left; rw [h']; exact digitChar_mem _
        · right; exact h'

theorem intChars_chars (n : Int) :
    ∀ c ∈ intChars n, (c ≠ lbrace ∧ c ≠ rbrace) ∧ c ≠ btick := by
  have hdig : ∀ m : Nat, ∀ c ∈ natDigits m, (c ≠ lbrace ∧ c ≠ rbrace) ∧ c ≠ btick := by
    intro m c hc
    unfold natDigits at hc
    have hmem : c ∈ ['0', '1', '2', '3', '4', '5', '6', '7', '8', '9'] := by
      split at hc
      · simp only [List.mem_singleton] at hc
        rw [hc]; decide
      · rcases natDigitsGo_sub m [] c hc with h | h
        · exact h
        · simp at h
    have : c = '0' ∨ c = '1' ∨ c = '2' ∨ c = '3' ∨ c = '4' ∨ c = '5' ∨ c = '6' ∨
        c = '7' ∨ c = '8' ∨ c = '9' := by simpa using hmem
    rcases this with rfl | rfl | rfl | rfl | rfl | rfl | rfl | rfl | rfl | rfl <;> decide
  intro c hc
  unfold intChars at hc
  split at hc
  · rcases List.mem_cons.mp hc with rfl | h
    · decide
    · exact hdig _ c h
  · exact hdig _ c hc

mutual

/-- Serializing a value whose strings avoid braces and backticks yields a
brace-balanced, backtick-free text. -/
theorem ser_good : ∀ v : Json, strsAll charBB v = true → GoodBlock (serialize v)
  | .null, _ => goodBlock_of_chars _ (by decide)
  | .bool b, _ => by
      cases b
      · exact goodBlock_of_chars _ (by decide)
      · exact goodBlock_of_chars _ (by decide)
  | .num n, _ => goodBlock_of_chars _ (intChars_chars n)
  | .str s, h => goodBlock_of_chars _ (serStr_chars s (by simpa [strsAll] using h))
  | .arr xs, h => by
      rw [show serialize (.arr xs) = ['['] ++ (serArr xs ++ [']']) from rfl]
      refine goodBlock_append _ _ (goodBlock_of_chars _ (by decide))
        (goodBlock_append _ _ (serArr_good xs ?_) (goodBlock_of_chars _ (by decide)))
      simpa [strsAll] using h
  | .obj fs, h => by
      rw [show serialize (.obj fs) = lbrace :: (serObj fs ++ [rbrace]) from rfl]
      refine goodBlock_braces _ (serObj_good fs ?_)
      simpa [strsAll] using h

/-- `ser_good` for comma-separated array elements. -/
theorem serArr_good : ∀ xs : List Json, strsAllL charBB xs = true → GoodBlock (serArr xs)
  | [], _ => goodBlock_nil
  | [x], h => by
      rw [show serArr [x] = serialize x from rfl]
      refine ser_good x ?_
      have hx := h
      rw [strsAllL, Bool.and_eq_true] at hx
      exact hx.1
  | x :: y :: xs, h => by
      have h' : strsAll charBB x = true ∧ strsAllL charBB (y :: xs) = true := by
        have hx := h
        rw [strsAllL, Bool.and_eq_true] at hx
        exact hx
      rw [show serArr (x :: y :: xs) = serialize x ++ (',' :: serArr (y :: xs)) from rfl]
      refine goodBlock_append _ _ (ser_good x h'.1) ?_
      rw [show (',' :: serArr (y :: xs)) = [','] ++ serArr (y :: xs) from rfl]
      exact goodBlock_append _ _ (goodBlock_of_chars _ (by decide))
        (serArr_good (y :: xs) h'.2)

/-- `ser_good` for comma-separated object members. -/
theorem serObj_good : ∀ fs : List (List Char × Json), strsAllF charBB fs = true →
    GoodBlock (serObj fs)
  | [], _ => goodBlock_nil
  | [(k, v)], h => by
      have h' := h
      simp only [strsAllF, Bool.and_eq_true] at h'
      rw [show serObj [(k, v)] = serStr k ++ (':' :: serialize v) from rfl]
      refine goodBlock_append _ _ (goodBlock_of_chars _ (serStr_chars k h'.1.1)) ?_
      rw [show (':' :: serialize v) = [':'] ++ serialize v from rfl]
      exact goodBlock_append _ _ (goodBlock_of_chars _ (by decide)) (ser_good v h'.1.2)
  | (k, v) :: m :: fs, h => by
      obtain ⟨k2, v2⟩ := m
      have h' : (k.all charBB = true ∧ strsAll charBB v = true) ∧
          strsAllF charBB ((k2, v2) :: fs) = true := by
        have hx := h
        rw [strsAllF, Bool.and_eq_true, Bool.and_eq_true] at hx
        exact hx
      rw [show serObj ((k, v) :: (k2, v2) :: fs)
          = serStr k ++ (':' :: (serialize v ++ (',' :: serObj ((k2, v2) :: fs)))) by
        rw [serObj]; simp only [List.cons_append, List.append_assoc]]
      refine goodBlock_append _ _ (goodBlock_of_chars _ (serStr_chars k h'.1.1)) ?_
      refine goodBlock_cons ':' _ (by decide) ?_
      refine goodBlock_append _ _ (ser_good v h'.1.2) ?_
      exact goodBlock_cons ',' _ (by decide) (serObj_good ((k2, v2) :: fs) h'.2)

end

/-! ### The fence-stripping steps do not touch a backtick-free prefix ending
in `}` -/

instance exceptDecEq {ε α : Type} [DecidableEq ε] [DecidableEq α] :
    DecidableEq (Except ε α) := fun a b =>
  match a, b with
  | .error x, .error y =>
    if h : x = y then .isTrue (by rw [h]) else .isFalse fun hc => h (Except.error.inj hc)
  | .error _, .ok _ => .isFalse fun hc => Except.noConfusion hc
  | .ok _, .error _ => .isFalse fun hc => Except.noConfusion hc
  | .ok x, .ok y =>
    if h : x = y then .isTrue (by rw [h]) else .isFalse fun hc => h (Except.ok.inj hc)

theorem matchCloseAt_none (cs : List Char)
    (h : ¬ (cs.dropWhile isJsWs).head? = some btick) : matchCloseAt cs = none := by
  unfold matchCloseAt
  rw [if_neg]
  rintro ⟨h3, -⟩
  apply h
  cases hdw : List.dropWhile isJsWs cs with
  | nil => rw [hdw] at h3; simp at h3
  | cons a t =>
    rw [hdw] at h3
    have ha : a = btick := by simpa using congrArg List.head? h3
    simp [ha]

theorem stripFenceOpenJson_id (cs : List Char) (h : ¬ cs.head? = some btick) :
    stripFenceOpenJson cs = cs := by
  unfold stripFenceOpenJson
  rw [if_neg]
  rintro ⟨h3, -⟩
  apply h
  cases cs with
  | nil => simp at h3
  | cons a t =>
    have ha : a = btick := by simpa using congrArg List.head? h3
    simp [ha]

theorem stripFenceOpen3_id (cs : List Char) (h : ¬ cs.head? = some btick) :
    stripFenceOpen3 cs = cs := by
  unfold stripFenceOpen3
  rw [if_neg]
  intro h3
  apply h
  cases cs with
  | nil => simp at h3
  | cons a t =>
    have ha : a = btick := by simpa using congrArg List.head? h3
    simp [ha]

theorem head_dropWhile_append (l r : List Char)
    (hbt : ∀ c ∈ l, c ≠ btick) (hlast : l.getLast? = some rbrace) :
    ¬ ((l ++ r).dropWhile isJsWs).head? = some btick := by
  induction l with
  | nil => simp at hlast
  | cons a l ih =>
    rw [List.cons_append, List.dropWhile_cons]
    by_cases ha : isJsWs a = true
    · rw [if_pos ha]
      cases l with
      | nil =>
        exfalso
        have haa : a = rbrace := by simpa using hlast
        rw [haa] at ha
        exact absurd ha (by decide)
      | cons b l' =>
        exact ih (fun c hc => hbt c (by simp [hc])) (by simpa using hlast)
    · rw [if_neg ha]
      have hab : a ≠ btick := hbt a (by simp)
      simp [hab]

theorem replaceCloseFence_append (l r : List Char)
    (hbt : ∀ c ∈ l, c ≠ btick) (hlast : l.getLast? = some rbrace) :
    replaceCloseFence (l ++ r) = l ++ replaceCloseFence r := by
  induction l with
  | nil => rfl
  | cons a l ih =>
    have hnone : matchCloseAt (a :: (l ++ r)) = none :=
      matchCloseAt_none _ (head_dropWhile_append (a :: l) r hbt hlast)
    have hstep : replaceCloseFence ((a :: l) ++ r) = a :: replaceCloseFence (l ++ r) := by
      rw [List.cons_append, replaceCloseFence, hnone]
    rw [hstep]
    cases l with
    | nil => rfl
    | cons b l' =>
      rw [ih (fun c hc => hbt c (by simp [hc])) (by simpa using hlast)]
      rfl

theorem findIdx_lbrace_aux (p1 rest : List Char) (i : Nat) (h : ∀ c ∈ p1, ¬ c = lbrace) :
    List.findIdx? (fun c => c = lbrace) (p1 ++ lbrace :: rest) i = some (i + p1.length) := by
  induction p1 generalizing i with
  | nil => simp [List.findIdx?_cons]
  | cons a p1 ih =>
    rw [List.cons_append, List.findIdx?_cons]
    have ha : ¬ a = lbrace := h a (by simp)
    rw [if_neg (by simpa using ha), ih (i + 1) (fun c hc => h c (by simp [hc]))]
    simp only [List.length_cons, Option.some.injEq]
    omega

theorem findIdx_lbrace (p1 rest : List Char) (h : ∀ c ∈ p1, ¬ c = lbrace) :
    (p1 ++ lbrace :: rest).findIdx? (fun c => c = lbrace) = some p1.length := by
  have hx := findIdx_lbrace_aux p1 rest 0 h
  simpa using hx

theorem extractJsonCore_spec (p1 rest : List Char) (off : Nat)
    (hp1 : ∀ c ∈ p1, ¬ c = lbrace)
    (hscan : scanClose (lbrace :: rest) 0 = some off) (hoff : off ≠ 0) :
    extractJsonCore (p1 ++ lbrace :: rest) = .ok ((lbrace :: rest).take (off + 1)) := by
  unfold extractJsonCore
  rw [findIdx_lbrace p1 rest hp1]
  show extractStep2 (p1 ++ lbrace :: rest) p1.length = _
  unfold extractStep2
  rw [List.drop_left, hscan]
  show (if off = 0 then Except.error JsonLocErr.incompleteJson
    else Except.ok ((lbrace :: rest).take (off + 1))) = _
  rw [if_neg hoff]

theorem serialize_obj_eq (fs : List (List Char × Json)) :
    serialize (Json.obj fs) = lbrace :: (serObj fs ++ [rbrace]) := by rw [serialize]

theorem extractJsonCore_obj (fs : List (List Char × Json)) (p1 r2 : List Char)
    (hbal : Bal0 (serObj fs))
    (hp1 : ∀ c ∈ p1, ¬ c = lbrace) :
    extractJsonCore (p1 ++ (lbrace :: ((serObj fs ++ [rbrace]) ++ r2)))
      = .ok (serialize (Json.obj fs)) := by
  have hscan : scanClose (lbrace :: ((serObj fs ++ [rbrace]) ++ r2)) 0
      = some ((serObj fs).length + 1) := scanClose_obj _ _ hbal
  rw [extractJsonCore_spec p1 _ ((serObj fs).length + 1) hp1 hscan (by omega)]
  congr 1
  rw [List.take_succ_cons]
  rw [show (serObj fs).length + 1 = (serObj fs ++ [rbrace]).length from by simp]
  rw [List.take_left]
  rw [serialize_obj_eq]

/-- The canonical opening fence the model emits: three backticks, `json`, a
newline. -/
def fenceOpenJson : List Char := [btick, btick, btick, 'j', 's', 'o', 'n', '\n']

/-- The canonical closing fence: a newline and three backticks. -/
def fenceCloseNl : List Char := ['\n', btick, btick, btick]

/-- **C1** (amended).  The fence-stripping plus depth-balanced brace scan of
`processDischargeSummary` extracts exactly the serialized object, (a) for an
object whose string literals contain no braces and no backticks, preceded by
prose free of `{` and backticks and followed by arbitrary text, and (b) for
such an object wrapped in ````json`/```` markdown fences.  (The original
claim, which also covered string values with literal `{`/`}`, is refuted by
`c1_extract_exact_counterexample`: the scan counts braces inside string
literals.) -/
theorem c1_extract_exact_amended :
    (∀ (fs : List (List Char × Json)) (p1 p2 : List Char),
      strsAllF charBB fs = true →
      (∀ c ∈ p1, ¬ c = lbrace ∧ ¬ c = btick) →
      extractJson (p1 ++ (serialize (Json.obj fs) ++ p2))
        = Except.ok (serialize (Json.obj fs)))
    ∧ (∀ fs : List (List Char × Json),
      strsAllF charBB fs = true →
      extractJson (fenceOpenJson ++ (serialize (Json.obj fs) ++ fenceCloseNl))
        = Except.ok (serialize (Json.obj fs))) := by
  constructor
  · intro fs p1 p2 hstr hp1
    have hgood : GoodBlock (serObj fs) := serObj_good fs hstr
    have hSgood : GoodBlock (serialize (Json.obj fs)) :=
      ser_good (Json.obj fs) (by rw [strsAll]; exact hstr)
    have hS := serialize_obj_eq fs
    have hlastS : (p1 ++ serialize (Json.obj fs)).getLast? = some rbrace := by
      rw [List.getLast?_append, hS,
        show lbrace :: (serObj fs ++ [rbrace]) = (lbrace :: serObj fs) ++ [rbrace] from rfl,
        List.getLast?_concat]
      rfl
    have hbtl : ∀ c ∈ p1 ++ serialize (Json.obj fs), c ≠ btick := by
      intro c hc
      rcases List.mem_append.mp hc with h | h
      · exact (hp1 c h).2
      · exact hSgood.2 c h
    have hhead : ∀ r : List Char,
        ¬ (p1 ++ (serialize (Json.obj fs) ++ r)).head? = some btick := by
      intro r
      cases p1 with
      | nil =>
        intro hx
        rw [List.nil_append, hS, List.cons_append] at hx
        simp only [List.head?_cons, Option.some.injEq] at hx
        exact absurd hx (by decide)
      | cons a t =>
        intro hx
        simp only [List.cons_append, List.head?_cons, Option.some.injEq] at hx
        exact (hp1 a (by simp)).2 hx
    unfold extractJson stripFences
    rw [stripFenceOpenJson_id _ (hhead p2)]
    rw [show p1 ++ (serialize (Json.obj fs) ++ p2) = (p1 ++ serialize (Json.obj fs)) ++ p2
      from (List.append_assoc _ _ _).symm]
    rw [replaceCloseFence_append _ _ hbtl hlastS]
    rw [show (p1 ++ serialize (Json.obj fs)) ++ replaceCloseFence p2
        = p1 ++ (serialize (Json.obj fs) ++ replaceCloseFence p2)
      from List.append_assoc _ _ _]
    rw [stripFenceOpen3_id _ (hhead (replaceCloseFence p2))]
    rw [show p1 ++ (serialize (Json.obj fs) ++ replaceCloseFence p2)
        = (p1 ++ serialize (Json.obj fs)) ++ replaceCloseFence p2
      from (List.append_assoc _ _ _).symm]
    rw [replaceCloseFence_append _ _ hbtl hlastS]
    rw [List.append_assoc]
    rw [show serialize (Json.obj fs) ++ replaceCloseFence (replaceCloseFence p2)
        = lbrace :: ((serObj fs ++ [rbrace]) ++ replaceCloseFence (replaceCloseFence p2))
      from by rw [hS, List.cons_append]]
    exact extractJsonCore_obj fs p1 _ hgood.1 fun c hc => (hp1 c hc).1
  · intro fs hstr
    have hgood : GoodBlock (serObj fs) := serObj_good fs hstr
    have hSgood : GoodBlock (serialize (Json.obj fs)) :=
      ser_good (Json.obj fs) (by rw [strsAll]; exact hstr)
    have hS := serialize_obj_eq fs
    have hlastS : (serialize (Json.obj fs)).getLast? = some rbrace := by
      rw [hS,
        show lbrace :: (serObj fs ++ [rbrace]) = (lbrace :: serObj fs) ++ [rbrace] from rfl,
        List.getLast?_concat]
    unfold extractJson stripFences
    have h1 : stripFenceOpenJson (fenceOpenJson ++ (serialize (Json.obj fs) ++ fenceCloseNl))
        = serialize (Json.obj fs) ++ fenceCloseNl := by
      unfold stripFenceOpenJson
      rw [if_pos ⟨rfl, rfl⟩]
      show ('\n' :: (serialize (Json.obj fs) ++ fenceCloseNl)).dropWhile isJsWs
        = serialize (Json.obj fs) ++ fenceCloseNl
      rw [List.dropWhile_cons, if_pos (by decide)]
      rw [hS, List.cons_append, List.dropWhile_cons, if_neg (by decide)]
    rw [h1]
    rw [replaceCloseFence_append _ _ hSgood.2 hlastS]
    rw [show replaceCloseFence fenceCloseNl = [] from rfl, List.append_nil]
    rw [stripFenceOpen3_id _ (by
      intro hx
      rw [hS] at hx
      simp only [List.head?_cons, Option.some.injEq] at hx
      exact absurd hx (by decide))]
    have h4 : replaceCloseFence (serialize (Json.obj fs)) = serialize (Json.obj fs) := by
      have hr := replaceCloseFence_append (serialize (Json.obj fs)) [] hSgood.2 hlastS
      rw [List.append_nil] at hr
      rw [hr, show replaceCloseFence [] = [] from rfl, List.append_nil]
    rw [h4]
    have hfin := extractJsonCore_obj fs [] [] hgood.1 (by simp)
    rw [show ([] : List Char) ++ (lbrace :: ((serObj fs ++ [rbrace]) ++ ([] : List Char)))
        = serialize (Json.obj fs) from by rw [hS]; simp] at hfin
    exact hfin

/-- The object `{"a":"}"}` used to refute the original C1: a single
well-formed JSON object whose string value holds a literal `}`. -/
def c1badObj : Json := Json.obj [(['a'], Json.str [rbrace])]

/-- **C1** (counterexample).  On the raw text `{"a":"}"}` — a single
well-formed JSON object, no fences, no prose — the extraction does *not*
return the object's text: the brace counter treats the `}` inside the string
value as a closing brace and truncates to `{"a":"}`. -/
theorem c1_extract_exact_counterexample :
    extractJson (serialize c1badObj) ≠ Except.ok (serialize c1badObj) := by decide

/-- Witness for `c1_extract_exact_amended` at concrete inputs: prose-wrapped
and fence-wrapped copies of `{"a":"hi"}`. -/
theorem c1_extract_exact_witness :
    extractJson (("Sure: ".toList)
        ++ (serialize (Json.obj [(['a'], Json.str ['h', 'i'])]) ++ " done".toList))
      = Except.ok (serialize (Json.obj [(['a'], Json.str ['h', 'i'])]))
    ∧ extractJson (fenceOpenJson
        ++ (serialize (Json.obj [(['a'], Json.str ['h', 'i'])]) ++ fenceCloseNl))
      = Except.ok (serialize (Json.obj [(['a'], Json.str ['h', 'i'])])) :=
  ⟨c1_extract_exact_amended.1 [(['a'], Json.str ['h', 'i'])] _ _ (by decide) (by decide),
   c1_extract_exact_amended.2 [(['a'], Json.str ['h', 'i'])] (by decide)⟩

/-! ### JavaScript value helpers for the parsed object -/

/-- Last-match lookup among object members (JS objects built by `JSON.parse`
keep the last of duplicate keys). -/
def lookupLast : List (List Char × Json) → List Char → Option Json
  | [], _ => none
  | (k', v) :: fs, k =>
    match lookupLast fs k with
    | some r => some r
    | none => if k' = k then some v else none

/-- Property access `x.k`: `none` models `undefined` (missing key or access
on a non-object primitive). -/
def getField : Json → List Char → Option Json
  | .obj fs, k => lookupLast fs k
  | _, _ => none

/-- JavaScript truthiness of a JSON value (`NaN` is outside the model). -/
def truthy : Json → Bool
  | .null => false
  | .bool b => b
  | .num n => !(n = 0 : Bool)
  | .str s => !s.isEmpty
  | .arr _ => true
  | .obj _ => true

/-- Truthiness of a possibly-`undefined` property. -/
def truthyO : Option Json → Bool
  | none => false
  | some v => truthy v

/-- `String.prototype.trim` (whitespace from both ends). -/
def jsTrim (s : List Char) : List Char :=
  ((s.dropWhile isJsWs).reverse.dropWhile isJsWs).reverse

/-- `String.prototype.toLowerCase` (ASCII). -/
def lowerStr (s : List Char) : List Char := s.map Char.toLower

/-! ### The normalized summary (`PediatricSummary`) and the schema coercion
of `processDischargeSummary` lines 316-324 -/

/-- A sanitized quiz question as built by lines 376-384.  The `id`,
`question`, `category` and option entries keep whatever JSON values the
model supplied (the code does not validate their types beyond what the
filters check). -/
structure QuizQ where
  id : Json
  question : Json
  options : List Json
  correctOptionIndexes : List Int
  category : Json
  explanation : Option Json
  weight : Int
deriving DecidableEq

/-- The normalized summary record. -/
structure PediatricSummary where
  simpleExplanation : Json
  whatToDo : List Json
  whatNotToDo : List Json
  redFlags : List Json
  medications : List Json
  followUp : List Json
  expectedCourse : Json
  quizQuestions : Option (List QuizQ)
deriving DecidableEq

/-- Fallback for a falsy `simpleExplanation` (line 317). -/
def noExplanationDefault : List Char :=
  "The discharge summary was processed, but no explanation could be extracted.".toList

/-- Fallback for a falsy `expectedCourse` (line 323). -/
def expectedCourseDefault : List Char :=
  "The discharge summary does not specify what to expect over the next few days.".toList

/-- `Array.isArray(parsed.k) ? parsed.k : []` (lines 318-322). -/
def arrField (parsed : Json) (k : List Char) : List Json :=
  match getField parsed k with
  | some (.arr xs) => xs
  | _ => []

/-- `parsed.k || dflt` for the two string fields (lines 317 and 323). -/
def strFieldOr (parsed : Json) (k : List Char) (dflt : List Char) : Json :=
  match getField parsed k with
  | some v => if truthy v then v else .str dflt
  | none => .str dflt

/-- Lines 316-324: the coercion of the parsed object into the fixed schema.
It is total: property access and `Array.isArray` cannot throw.  Quiz
questions are attached separately (line 327). -/
def coerceSummary (parsed : Json) : PediatricSummary :=
  ⟨strFieldOr parsed "simpleExplanation".toList noExplanationDefault,
   arrField parsed "whatToDo".toList,
   arrField parsed "whatNotToDo".toList,
   arrField parsed "redFlags".toList,
   arrField parsed "medications".toList,
   arrField parsed "followUp".toList,
   strFieldOr parsed "expectedCourse".toList expectedCourseDefault,
   none⟩

/-! ### The quiz sanitizer (lines 327-386) -/

/-- The fixed list of ambiguous meta-answers (lines 336-344). -/
def metaAnswers : List (List Char) :=
  ["all of the above".toList, "none of the above".toList,
   "all of the options above".toList, "none of the options above".toList,
   "a and b".toList, "a and b only".toList, "both a and b".toList]

/-- The option-filter callback of lines 332-345: `some b` when the callback
returns `b`, `none` when it throws (`.trim()` on a truthy non-string). -/
def cleanOption (opt : Json) : Option Bool :=
  if !truthy opt then some false
  else
    match opt with
    | .str s =>
      if (lowerStr (jsTrim s)).isEmpty then some false
      else some (!metaAnswers.contains (lowerStr (jsTrim s)))
    | _ => none

/-- `q.options.filter(...)` with exception propagation. -/
def filterOptions : List Json → Option (List Json)
  | [] => some []
  | o :: os =>
    match cleanOption o with
    | none => none
    | some true => (filterOptions os).map (o :: ·)
    | some false => filterOptions os

/-- The index filter of lines 352-354: keep values that are integers
(`Number.isInteger` rejects every non-number) within `[0, maxIndex]`. -/
def filterIdx (maxIndex : Int) (raw : List Json) : List Int :=
  raw.filterMap fun j =>
    match j with
    | .num n => if 0 ≤ n ∧ n ≤ maxIndex then some n else none
    | _ => none

/-- `Array.from(new Set(l))`: first-occurrence deduplication. -/
def dedupGo : List Int → List Int → List Int
  | [], _ => []
  | x :: xs, seen =>
    if seen.contains x then dedupGo xs seen else x :: dedupGo xs (x :: seen)

/-- The JS `Set`-based deduplication, preserving first occurrences. -/
def jsSetDedup (l : List Int) : List Int := dedupGo l []

/-- `(q.correctOptionIndexes || [])` before its `.filter` (line 352):
a falsy value becomes `[]`; a truthy non-array throws (`none`). -/
def rawIndexes (q : Json) : Option (List Json) :=
  match getField q "correctOptionIndexes".toList with
  | none => some []
  | some v =>
    if truthy v then
      match v with
      | .arr xs => some xs
      | _ => none
    else some []

/-- Lines 358-374: keep `q.weight` when it is a number, otherwise default by
the `switch` on `q.category` (`switch` matches by strict equality, so only
string categories select a non-default branch). -/
def deriveWeight (q : Json) : Int :=
  match getField q "weight".toList with
  | some (.num w) => w
  | _ =>
    match getField q "category".toList with
    | some (.str c) =>
      if c = "redFlag".toList then 30
      else if c = "medication".toList then 25
      else if c = "followUp".toList then 20
      else 15
    | _ => 15

/-- `q.id || q.question.slice(0, 32)` (line 377); `none` models the
`TypeError` of `.slice` on a missing or non-string question. -/
def deriveId (q : Json) : Option Json :=
  if truthyO (getField q "id".toList) then getField q "id".toList
  else
    match getField q "question".toList with
    | some (.str s) => some (.str (s.take 32))
    | _ => none

/-- `q.category ?? "care"` (line 381). -/
def deriveCategory (q : Json) : Json :=
  match getField q "category".toList with
  | none => .str "care".toList
  | some .null => .str "care".toList
  | some v => v

/-- The filter of line 329: `q && q.question && Array.isArray(q.options) &&
q.options.length >= 2`. -/
def questionSurvives (q : Json) : Bool :=
  truthy q && truthyO (getField q "question".toList) &&
    (match getField q "options".toList with
     | some (.arr xs) => decide (2 ≤ xs.length)
     | _ => false)

/-- The `.map` body of lines 330-384 for one surviving question; `none`
models a thrown `TypeError`.  (For a question that passed the line-329
filter, `q.question` is present and truthy, so the last fall-through arm is
unreachable in the pipeline.) -/
def sanitizeOne (q : Json) : Option QuizQ :=
  match getField q "options".toList with
  | some (.arr rawOpts) =>
    match filterOptions rawOpts with
    | none => none
    | some cleaned =>
      match rawIndexes q with
      | none => none
      | some rawIdx =>
        match deriveId q, getField q "question".toList with
        | some idv, some qv =>
          some ⟨idv, qv, cleaned.take 4,
            (if (jsSetDedup (filterIdx (((cleaned.take 4).length : Int) - 1) rawIdx)).isEmpty
             then [0]
             else jsSetDedup (filterIdx (((cleaned.take 4).length : Int) - 1) rawIdx)),
            deriveCategory q, getField q "explanation".toList, deriveWeight q⟩
        | _, _ => none
  | _ => none

/-- Lines 328-385: `.filter(...)` then `.map(...)`, with exception
propagation. -/
def sanitizeQuestions : List Json → Option (List QuizQ)
  | [] => some []
  | q :: rest =>
    if questionSurvives q then
      match sanitizeOne q, sanitizeQuestions rest with
      | some a, some b => some (a :: b)
      | _, _ => none
    else sanitizeQuestions rest

/-- Lines 316-386: coerce the summary fields, then attach sanitized quiz
questions when `parsed.quizQuestions` is an array; `none` models the
`TypeError`s the sanitizer can throw (caught and rethrown by the outer
handler). -/
def buildSummary (parsed : Json) : Option PediatricSummary :=
  match getField parsed "quizQuestions".toList with
  | some (.arr qs) =>
    match sanitizeQuestions qs with
    | none => none
    | some l =>
      some ⟨(coerceSummary parsed).simpleExplanation, (coerceSummary parsed).whatToDo,
        (coerceSummary parsed).whatNotToDo, (coerceSummary parsed).redFlags,
        (coerceSummary parsed).medications, (coerceSummary parsed).followUp,
        (coerceSummary parsed).expectedCourse, some l⟩
  | _ => some (coerceSummary parsed)

/-! ### Inversion of the sanitizer -/

theorem sanitizeOne_inv (q : Json) (q' : QuizQ) (h : sanitizeOne q = some q') :
    ∃ rawOpts cleaned rawIdx,
      getField q "options".toList = some (Json.arr rawOpts)
      ∧ filterOptions rawOpts = some cleaned
      ∧ rawIndexes q = some rawIdx
      ∧ q'.options = cleaned.take 4
      ∧ q'.correctOptionIndexes =
          (if (jsSetDedup (filterIdx (((cleaned.take 4).length : Int) - 1) rawIdx)).isEmpty
           then [0]
           else jsSetDedup (filterIdx (((cleaned.take 4).length : Int) - 1) rawIdx)) := by
  rcases hopts : getField q "options".toList with _ | v
  · simp only [sanitizeOne, hopts] at h
    exact Option.noConfusion h
  · cases v with
    | null => simp only [sanitizeOne, hopts] at h; exact Option.noConfusion h
    | bool b => simp only [sanitizeOne, hopts] at h; exact Option.noConfusion h
    | num n => simp only [sanitizeOne, hopts] at h; exact Option.noConfusion h
    | str s => simp only [sanitizeOne, hopts] at h; exact Option.noConfusion h
    | obj fs => simp only [sanitizeOne, hopts] at h; exact Option.noConfusion h
    | arr rawOpts =>
      rcases hclean : filterOptions rawOpts with _ | cleaned
      · simp only [sanitizeOne, hopts, hclean] at h
        exact Option.noConfusion h
      · rcases hraw : rawIndexes q with _ | rawIdx
        · simp only [sanitizeOne, hopts, hclean, hraw] at h
          exact Option.noConfusion h
        · rcases hid : deriveId q with _ | idv
          · simp only [sanitizeOne, hopts, hclean, hraw, hid] at h
            exact Option.noConfusion h
          · rcases hq : getField q "question".toList with _ | qv
            · simp only [sanitizeOne, hopts, hclean, hraw, hid, hq] at h
              exact Option.noConfusion h
            · simp only [sanitizeOne, hopts, hclean, hraw, hid, hq,
                Option.some.injEq] at h
              subst h
              exact ⟨rawOpts, cleaned, rawIdx, rfl, hclean, rfl, rfl, rfl⟩

theorem filterOptions_mem (raw cleaned : List Json)
    (h : filterOptions raw = some cleaned) :
    ∀ o ∈ cleaned, cleanOption o = some true := by
  induction raw generalizing cleaned with
  | nil =>
    simp only [filterOptions, Option.some.injEq] at h
    subst h
    simp
  | cons a raw ih =>
    rcases hc : cleanOption a with _ | b
    · simp only [filterOptions, hc] at h
      exact Option.noConfusion h
    · cases b
      · simp only [filterOptions, hc] at h
        exact ih cleaned h
      · simp only [filterOptions, hc] at h
        rcases hrest : filterOptions raw with _ | cl
        · rw [hrest] at h; simp at h
        · rw [hrest] at h
          simp only [Option.map_some', Option.some.injEq] at h
          subst h
          intro o ho
          rcases List.mem_cons.mp ho with rfl | ho
          · exact hc
          · exact ih cl hrest o ho

theorem filterOptions_sublist (raw cleaned : List Json)
    (h : filterOptions raw = some cleaned) : List.Sublist cleaned raw := by
  induction raw generalizing cleaned with
  | nil =>
    simp only [filterOptions, Option.some.injEq] at h
    subst h
    exact List.Sublist.refl _
  | cons a raw ih =>
    rcases hc : cleanOption a with _ | b
    · simp only [filterOptions, hc] at h
      exact Option.noConfusion h
    · cases b
      · simp only [filterOptions, hc] at h
        exact (ih cleaned h).cons a
      · simp only [filterOptions, hc] at h
        rcases hrest : filterOptions raw with _ | cl
        · rw [hrest] at h; simp at h
        · rw [hrest] at h
          simp only [Option.map_some', Option.some.injEq] at h
          subst h
          exact (ih cl hrest).cons₂ a

/-! ### Claims C2 and C10: the schema coercion -/

/-- The claim-side description of an array-field coercion: the output equals
the parsed array when the field is an array, and is empty otherwise. -/
def ArrCoerced (parsed : Json) (k : List Char) (out : List Json) : Prop :=
  (∀ xs, getField parsed k = some (Json.arr xs) → out = xs)
  ∧ ((∀ xs, getField parsed k ≠ some (Json.arr xs)) → out = [])

/-- The claim-side description of a string-field coercion: the output equals
the parsed value when truthy, and the fixed default otherwise. -/
def StrCoerced (parsed : Json) (k dflt : List Char) (out : Json) : Prop :=
  (∀ v, getField parsed k = some v → truthy v = true → out = v)
  ∧ (truthyO (getField parsed k) = false → out = Json.str dflt)

theorem arrField_coerced (parsed : Json) (k : List Char) :
    ArrCoerced parsed k (arrField parsed k) := by
  constructor
  · intro xs h
    unfold arrField
    rw [h]
  · intro h
    unfold arrField
    rcases hg : getField parsed k with _ | v
    · rfl
    · cases v with
      | arr xs => exact absurd hg (h xs)
      | null => rfl
      | bool b => rfl
      | num n => rfl
      | str s => rfl
      | obj fs => rfl

theorem strFieldOr_coerced (parsed : Json) (k dflt : List Char) :
    StrCoerced parsed k dflt (strFieldOr parsed k dflt) := by
  constructor
  · intro v h ht
    unfold strFieldOr
    rw [h]
    show (if truthy v then v else Json.str dflt) = v
    rw [if_pos ht]
  · intro h
    unfold strFieldOr
    rcases hg : getField parsed k with _ | v
    · rfl
    · rw [hg] at h
      show (if truthy v then v else Json.str dflt) = Json.str dflt
      rw [if_neg]
      simp only [truthyO] at h
      simp [h]

/-- **C2**.  For every parsed JSON value, the coercion of lines 315-324 gives
each expected array field (`whatToDo`, `whatNotToDo`, `redFlags`,
`medications`, `followUp`) the parsed value when it is an array and the
empty sequence otherwise, and gives `simpleExplanation`/`expectedCourse` the
parsed value when truthy and the fixed default string otherwise. -/
theorem c2_schema_coercion (parsed : Json) :
    ArrCoerced parsed "whatToDo".toList (coerceSummary parsed).whatToDo
    ∧ ArrCoerced parsed "whatNotToDo".toList (coerceSummary parsed).whatNotToDo
    ∧ ArrCoerced parsed "redFlags".toList (coerceSummary parsed).redFlags
    ∧ ArrCoerced parsed "medications".toList (coerceSummary parsed).medications
    ∧ ArrCoerced parsed "followUp".toList (coerceSummary parsed).followUp
    ∧ StrCoerced parsed "simpleExplanation".toList noExplanationDefault
        (coerceSummary parsed).simpleExplanation
    ∧ StrCoerced parsed "expectedCourse".toList expectedCourseDefault
        (coerceSummary parsed).expectedCourse :=
  ⟨arrField_coerced parsed _, arrField_coerced parsed _, arrField_coerced parsed _,
   arrField_coerced parsed _, arrField_coerced parsed _,
   strFieldOr_coerced parsed _ _, strFieldOr_coerced parsed _ _⟩

/-- **C10**.  The coercion is shallow: an array-valued field is passed
through element for element with no element validation, so non-string
entries and medication objects lacking `name`/`dose`/`timing` survive
unchanged. -/
theorem c10_shallow_coercion (parsed : Json) (xs ms : List Json)
    (hw : getField parsed "whatToDo".toList = some (Json.arr xs))
    (hm : getField parsed "medications".toList = some (Json.arr ms)) :
    (coerceSummary parsed).whatToDo = xs ∧ (coerceSummary parsed).medications = ms := by
  constructor
  · show arrField parsed "whatToDo".toList = xs
    unfold arrField
    rw [hw]
  · show arrField parsed "medications".toList = ms
    unfold arrField
    rw [hm]

/-- A parsed object whose `whatToDo` holds a number and an object, and whose
single medication entry lacks `dose` and `timing`. -/
def c10parsed : Json :=
  Json.obj
    [("whatToDo".toList, Json.arr [Json.num 5, Json.obj []]),
     ("medications".toList, Json.arr [Json.obj [("name".toList, Json.str "x".toList)]])]

/-- Witness for `c10_shallow_coercion`: the malformed entries survive. -/
theorem c10_shallow_coercion_witness :
    (coerceSummary c10parsed).whatToDo = [Json.num 5, Json.obj []]
    ∧ (coerceSummary c10parsed).medications
        = [Json.obj [("name".toList, Json.str "x".toList)]] :=
  c10_shallow_coercion c10parsed _ _ (by decide) (by decide)

/-! ### Claim C3: the sanitizer invariant (a code bug) -/

/-- A quiz item whose options are all meta-answers: it passes the
`options.length >= 2` filter, which runs before the meta-option removal. -/
def c3item : Json :=
  Json.obj
    [("question".toList, Json.str "Which?".toList),
     ("options".toList,
      Json.arr [Json.str "All of the above".toList, Json.str "None of the above".toList])]

/-- **C3** (code bug).  The sanitized output for `c3item` has an *empty*
options list with correct-index set `{0}`: the 2-4-options invariant and the
in-bounds-indexes invariant are both violated, because the `>= 2` length
check runs on the raw options before meta-answer removal. -/
theorem c3_invariant_code_bug :
    sanitizeQuestions [c3item]
      = some [⟨Json.str "Which?".toList, Json.str "Which?".toList, [], [0],
          Json.str "care".toList, none, 15⟩]
    ∧ ∀ qs, sanitizeQuestions [c3item] = some qs →
        ∃ q' ∈ qs, q'.options.length < 2 ∧ ∃ i ∈ q'.correctOptionIndexes,
          ¬ i < (q'.options.length : Int) := by
  constructor
  · decide
  · intro qs hqs
    have : qs = [⟨Json.str "Which?".toList, Json.str "Which?".toList, [], [0],
        Json.str "care".toList, none, 15⟩] := by
      have h0 : sanitizeQuestions [c3item]
          = some [⟨Json.str "Which?".toList, Json.str "Which?".toList, [], [0],
              Json.str "care".toList, none, 15⟩] := by decide
      rw [h0] at hqs
      exact (Option.some.inj hqs).symm
    subst this
    refine ⟨⟨Json.str "Which?".toList, Json.str "Which?".toList, [], [0],
        Json.str "care".toList, none, 15⟩, by simp, by decide, 0, by decide, by decide⟩

/-! ### Claim C4: the correct-index default -/

/-- **C4**.  For a quiz item the sanitizer keeps, the sanitized index set is
the filtered (integers within the truncated bounds), first-occurrence
deduplicated set when that set is non-empty, and `[0]` when it is empty. -/
theorem c4_index_default (q : Json) (q' : QuizQ) (rawOpts cleaned rawIdx : List Json)
    (hopts : getField q "options".toList = some (Json.arr rawOpts))
    (hclean : filterOptions rawOpts = some cleaned)
    (hraw : rawIndexes q = some rawIdx)
    (hsan : sanitizeOne q = some q') :
    (jsSetDedup (filterIdx (((cleaned.take 4).length : Int) - 1) rawIdx) = [] →
        q'.correctOptionIndexes = [0])
    ∧ (jsSetDedup (filterIdx (((cleaned.take 4).length : Int) - 1) rawIdx) ≠ [] →
        q'.correctOptionIndexes
          = jsSetDedup (filterIdx (((cleaned.take 4).length : Int) - 1) rawIdx)) := by
  obtain ⟨r2, c2, i2, ho2, hc2, hi2, -, hidx⟩ := sanitizeOne_inv q q' hsan
  have hr : r2 = rawOpts := by
    rw [hopts] at ho2
    exact (Json.arr.inj (Option.some.inj ho2)).symm
  subst hr
  have hcc : c2 = cleaned := by
    rw [hclean] at hc2
    exact (Option.some.inj hc2).symm
  subst hcc
  have hii : i2 = rawIdx := by
    rw [hraw] at hi2
    exact (Option.some.inj hi2).symm
  subst hii
  constructor
  · intro hemp
    rw [hidx, if_pos (by rw [hemp]; rfl)]
  · intro hne
    rw [hidx, if_neg (by intro hc; exact hne (by simpa using hc))]

/-- Quiz item whose only raw index (7) is out of bounds. -/
def c4item : Json :=
  Json.obj
    [("question".toList, Json.str "q".toList),
     ("options".toList, Json.arr [Json.str "a".toList, Json.str "b".toList]),
     ("correctOptionIndexes".toList, Json.arr [Json.num 7])]

/-- Quiz item with duplicate and out-of-bounds raw indexes `[1,5,1,0]`. -/
def c4item2 : Json :=
  Json.obj
    [("question".toList, Json.str "q".toList),
     ("options".toList, Json.arr [Json.str "a".toList, Json.str "b".toList]),
     ("correctOptionIndexes".toList,
      Json.arr [Json.num 1, Json.num 5, Json.num 1, Json.num 0])]

/-- Witness for `c4_index_default`: the empty-after-filtering branch defaults
to `[0]`; the non-empty branch keeps the deduplicated in-bounds set. -/
theorem c4_index_default_witness :
    (⟨Json.str "q".toList, Json.str "q".toList,
        [Json.str "a".toList, Json.str "b".toList], [0],
        Json.str "care".toList, none, 15⟩ : QuizQ).correctOptionIndexes = [0]
    ∧ (⟨Json.str "q".toList, Json.str "q".toList,
        [Json.str "a".toList, Json.str "b".toList], [1, 0],
        Json.str "care".toList, none, 15⟩ : QuizQ).correctOptionIndexes = [1, 0] :=
  ⟨(c4_index_default c4item
        ⟨Json.str "q".toList, Json.str "q".toList,
          [Json.str "a".toList, Json.str "b".toList], [0],
          Json.str "care".toList, none, 15⟩
        [Json.str "a".toList, Json.str "b".toList]
        [Json.str "a".toList, Json.str "b".toList]
        [Json.num 7]
        (by decide) (by decide) (by decide) (by decide)).1 (by decide),
   Eq.trans
     ((c4_index_default c4item2
        ⟨Json.str "q".toList, Json.str "q".toList,
          [Json.str "a".toList, Json.str "b".toList], [1, 0],
          Json.str "care".toList, none, 15⟩
        [Json.str "a".toList, Json.str "b".toList]
        [Json.str "a".toList, Json.str "b".toList]
        [Json.num 1, Json.num 5, Json.num 1, Json.num 0]
        (by decide) (by decide) (by decide) (by decide)).2 (by decide))
     (by decide)⟩

/-! ### Claim C5: meta-answer filtering -/

/-- **C5** (amended).  An option whose trimmed, case-folded text equals one
of the fixed meta-answer strings (exact match, no punctuation tolerance) is
absent from the sanitized options list.  (The original claim also promised
removal of variants with trailing punctuation; `c5_meta_filter_counterexample`
shows `"All of the above."` survives.) -/
theorem c5_meta_filter_amended (q : Json) (q' : QuizQ) (s : List Char)
    (hsan : sanitizeOne q = some q')
    (hmeta : lowerStr (jsTrim s) ∈ metaAnswers) :
    ¬ Json.str s ∈ q'.options := by
  obtain ⟨rawOpts, cleaned, rawIdx, -, hclean, -, hopt', -⟩ := sanitizeOne_inv q q' hsan
  intro hmem
  rw [hopt'] at hmem
  have hcl : Json.str s ∈ cleaned := List.mem_of_mem_take hmem
  have hco := filterOptions_mem rawOpts cleaned hclean _ hcl
  simp only [cleanOption] at hco
  split_ifs at hco with h1 h2
  · exact Bool.noConfusion (Option.some.inj hco)
  · exact Bool.noConfusion (Option.some.inj hco)
  · have hb := Option.some.inj hco
    rw [Bool.not_eq_true'] at hb
    have hcontains : metaAnswers.contains (lowerStr (jsTrim s)) = true :=
      List.elem_iff.mpr hmeta
    rw [hcontains] at hb
    exact Bool.noConfusion hb

/-- An item whose first option is `"All of the above."` — a meta-answer
variant with trailing punctuation. -/
def c5item : Json :=
  Json.obj
    [("question".toList, Json.str "q".toList),
     ("options".toList,
      Json.arr [Json.str "All of the above.".toList, Json.str "Call doctor".toList,
        Json.str "Go to ER".toList])]

/-- The sanitized question the code produces for `c5item`. -/
def c5q : QuizQ :=
  ⟨Json.str "q".toList, Json.str "q".toList,
   [Json.str "All of the above.".toList, Json.str "Call doctor".toList,
    Json.str "Go to ER".toList],
   [0], Json.str "care".toList, none, 15⟩

/-- **C5** (counterexample).  The punctuated meta-variant
`"All of the above."` is *not* removed: the filter compares the trimmed,
lower-cased text for exact equality with the fixed list, so trailing
punctuation defeats it. -/
theorem c5_meta_filter_counterexample :
    sanitizeQuestions [c5item] = some [c5q]
    ∧ Json.str "All of the above.".toList ∈ c5q.options := by decide

/-- An item containing the unpunctuated, mixed-case variant. -/
def c5witem : Json :=
  Json.obj
    [("question".toList, Json.str "q".toList),
     ("options".toList,
      Json.arr [Json.str "Call doctor".toList, Json.str "All of the Above".toList,
        Json.str "Go to ER".toList])]

/-- Witness for `c5_meta_filter_amended`: `"All of the Above"` is removed. -/
theorem c5_meta_filter_witness :
    ¬ Json.str "All of the Above".toList ∈
      (⟨Json.str "q".toList, Json.str "q".toList,
        [Json.str "Call doctor".toList, Json.str "Go to ER".toList],
        [0], Json.str "care".toList, none, 15⟩ : QuizQ).options :=
  c5_meta_filter_amended c5witem
    ⟨Json.str "q".toList, Json.str "q".toList,
      [Json.str "Call doctor".toList, Json.str "Go to ER".toList],
      [0], Json.str "care".toList, none, 15⟩
    "All of the Above".toList (by decide) (by decide)

/-! ### Claim C6: truncation to four options -/

/-- **C6** (amended).  When the options *surviving the meta-filter* number
more than four, the sanitized list has exactly four entries and is a
sublist of the raw options (original relative order, truncation only).
(The original claim counted the *raw* options; `c6_truncation_counterexample`
shows an item with five raw options whose sanitized list has three.) -/
theorem c6_truncation_amended (q : Json) (q' : QuizQ) (rawOpts cleaned : List Json)
    (hopts : getField q "options".toList = some (Json.arr rawOpts))
    (hclean : filterOptions rawOpts = some cleaned)
    (hsan : sanitizeOne q = some q')
    (hlen : 4 < cleaned.length) :
    q'.options.length = 4 ∧ List.Sublist q'.options rawOpts := by
  obtain ⟨r2, c2, i2, ho2, hc2, -, hopt', -⟩ := sanitizeOne_inv q q' hsan
  rw [hopts] at ho2
  have hr : rawOpts = r2 := Json.arr.inj (Option.some.inj ho2)
  rw [← hr, hclean] at hc2
  have hcc : cleaned = c2 := Option.some.inj hc2
  rw [← hcc] at hopt'
  constructor
  · rw [hopt', List.length_take]
    omega
  · rw [hopt']
    exact (List.take_sublist 4 cleaned).trans (filterOptions_sublist rawOpts cleaned hclean)

/-- Five raw options, two of them meta-answers. -/
def c6item : Json :=
  Json.obj
    [("question".toList, Json.str "q".toList),
     ("options".toList,
      Json.arr [Json.str "a1".toList, Json.str "All of the above".toList,
        Json.str "b2".toList, Json.str "None of the above".toList,
        Json.str "c3".toList])]

/-- The sanitized question the code produces for `c6item`. -/
def c6q : QuizQ :=
  ⟨Json.str "q".toList, Json.str "q".toList,
   [Json.str "a1".toList, Json.str "b2".toList, Json.str "c3".toList],
   [0], Json.str "care".toList, none, 15⟩

/-- **C6** (counterexample).  `c6item` has five (more than four) options, yet
its sanitized options list has three entries, not four: meta-answer removal
runs before the truncation, so the claim as stated over raw options fails. -/
theorem c6_truncation_counterexample :
    getField c6item "options".toList
      = some (Json.arr [Json.str "a1".toList, Json.str "All of the above".toList,
          Json.str "b2".toList, Json.str "None of the above".toList,
          Json.str "c3".toList])
    ∧ 4 < ([Json.str "a1".toList, Json.str "All of the above".toList,
          Json.str "b2".toList, Json.str "None of the above".toList,
          Json.str "c3".toList] : List Json).length
    ∧ sanitizeQuestions [c6item] = some [c6q]
    ∧ c6q.options.length ≠ 4 := by decide

/-- Five raw options, none of them meta-answers. -/
def c6witem : Json :=
  Json.obj
    [("question".toList, Json.str "q".toList),
     ("options".toList,
      Json.arr [Json.str "o1".toList, Json.str "o2".toList, Json.str "o3".toList,
        Json.str "o4".toList, Json.str "o5".toList])]

/-- Witness for `c6_truncation_amended`: five surviving options truncate to
the first four, in order. -/
theorem c6_truncation_witness :
    (⟨Json.str "q".toList, Json.str "q".toList,
      [Json.str "o1".toList, Json.str "o2".toList, Json.str "o3".toList,
        Json.str "o4".toList],
      [0], Json.str "care".toList, none, 15⟩ : QuizQ).options.length = 4
    ∧ List.Sublist
        (⟨Json.str "q".toList, Json.str "q".toList,
          [Json.str "o1".toList, Json.str "o2".toList, Json.str "o3".toList,
            Json.str "o4".toList],
          [0], Json.str "care".toList, none, 15⟩ : QuizQ).options
        [Json.str "o1".toList, Json.str "o2".toList, Json.str "o3".toList,
          Json.str "o4".toList, Json.str "o5".toList] :=
  c6_truncation_amended c6witem
    ⟨Json.str "q".toList, Json.str "q".toList,
      [Json.str "o1".toList, Json.str "o2".toList, Json.str "o3".toList,
        Json.str "o4".toList],
      [0], Json.str "care".toList, none, 15⟩
    [Json.str "o1".toList, Json.str "o2".toList, Json.str "o3".toList,
      Json.str "o4".toList, Json.str "o5".toList]
    [Json.str "o1".toList, Json.str "o2".toList, Json.str "o3".toList,
      Json.str "o4".toList, Json.str "o5".toList]
    (by decide) (by decide) (by decide) (by decide)

/-! ### Claim C8: `gradeQuizAnswer` and its local fallback heuristic -/

/-- The separator class of the regex `[;,\s]+` (line 513). -/
def isSepChar (c : Char) : Bool := c = ';' || c = ',' || isJsWs c

/-- JavaScript `String.prototype.split` on the regex `[;,\s]+`: pieces
between maximal separator runs, keeping empty leading/trailing pieces
(`";a"` gives `["", "a"]`, `"a;"` gives `["a", ""]`, `""` gives `[""]`). -/
def splitRuns : List Char → List (List Char)
  | [] => [[]]
  | c :: cs =>
    if isSepChar c then
      match cs with
      | c2 :: _ => if isSepChar c2 then splitRuns cs else [] :: splitRuns cs
      | [] => [] :: splitRuns cs
    else
      match splitRuns cs with
      | t :: rest => (c :: t) :: rest
      | [] => [[c]]

/-- Does `hay` start with `needle`? -/
def startsWith : List Char → List Char → Bool
  | [], _ => true
  | _ :: _, [] => false
  | a :: as, b :: bs => a = b && startsWith as bs

/-- `hay.includes(needle)`: substring containment. -/
def containsSub (needle : List Char) : List Char → Bool
  | [] => needle.isEmpty
  | c :: hs => startsWith needle (c :: hs) || containsSub needle hs

/-- Line 513: `correctAnswer.toLowerCase().split(/[;,\s]+/)`. -/
def fallbackKeywords (correctAnswer : List Char) : List (List Char) :=
  splitRuns (lowerStr correctAnswer)

/-- Lines 515-517: the keywords longer than 3 characters that the
lower-cased user answer contains. -/
def fallbackMatched (correctAnswer userAnswer : List Char) : List (List Char) :=
  (fallbackKeywords correctAnswer).filter
    fun kw => decide (3 < kw.length) && containsSub kw (lowerStr userAnswer)

/-- Line 518: `matchedKeywords.length >= Math.min(3, keywords.length / 3)`
(JavaScript division is exact here, modelled over `ℚ`). -/
def fallbackIsCorrect (ca ua : List Char) : Bool :=
  decide ((min (3 : ℚ) (((fallbackKeywords ca).length : ℚ) / 3))
    ≤ ((fallbackMatched ca ua).length : ℚ))

/-- The feedback string of line 524. -/
def fallbackFeedbackBad (ca : List Char) : List Char :=
  "The key points to remember are: ".toList
    ++ List.intercalate ", ".toList ((ca.splitOn ';').take 2)
    ++ ". Try to include these in your answer.".toList

/-- The result record of `gradeQuizAnswer`.  Both fields are JSON values:
on the remote path the code keeps whatever the model returned. -/
structure GradeResult where
  isCorrect : Json
  feedback : Json
deriving DecidableEq

/-- Lines 512-525: the local fallback grade. -/
def fallbackGrade (ca ua : List Char) : GradeResult :=
  ⟨Json.bool (fallbackIsCorrect ca ua),
   Json.str (if fallbackIsCorrect ca ua
     then "Great! You've correctly identified the key points.".toList
     else fallbackFeedbackBad ca)⟩

/-- `gradeQuizAnswer`: the remote round trip (fetch, envelope checks, fence
strip, `JSON.parse`) is abstracted as its outcome — `some parsed` when the
`try` block reached line 506 with a parsed object, `none` when anything in
it threw.  On success the result is lines 506-509
(`parsed.isCorrect ?? false`, `parsed.feedback || "Thank you..."`); on any
failure the `catch` returns the local heuristic. -/
def gradeQuizAnswer (roundTrip : Option Json)
    (question correctAnswer userAnswer : List Char) : GradeResult :=
  match roundTrip with
  | some parsed =>
    ⟨(match getField parsed "isCorrect".toList with
      | none => Json.bool false
      | some .null => Json.bool false
      | some v => v),
     (match getField parsed "feedback".toList with
      | some v => if truthy v then v else Json.str "Thank you for your answer.".toList
      | none => Json.str "Thank you for your answer.".toList)⟩
  | none => fallbackGrade correctAnswer userAnswer

theorem min_div_le_iff (k m : Nat) :
    ((min (3 : ℚ) ((k : ℚ) / 3)) ≤ (m : ℚ)) ↔ (3 ≤ m ∨ k ≤ 3 * m) := by
  rw [min_le_iff]
  constructor
  · rintro (h | h)
    · left; exact_mod_cast h
    · right
      rw [div_le_iff₀ (by norm_num : (0 : ℚ) < 3)] at h
      exact_mod_cast (by linarith : (k : ℚ) ≤ 3 * m)
  · rintro (h | h)
    · left; exact_mod_cast h
    · right
      rw [div_le_iff₀ (by norm_num : (0 : ℚ) < 3)]
      have : (k : ℚ) ≤ 3 * m := by exact_mod_cast h
      linarith

/-- **C8**.  Whenever the grading round trip fails in any way, the function
does not propagate an error but returns the local heuristic's result: the
lower-cased reference answer is split on `[;,\s]+`, tokens longer than 3
characters contained in the user's lower-cased text are counted, and the
answer is marked correct exactly when that count reaches
`min(3, tokenCount/3)` (equivalently: at least 3 matches, or three times the
matches reaching the token count). -/
theorem c8_grading_fallback (question ca ua : List Char) :
    gradeQuizAnswer none question ca ua = fallbackGrade ca ua
    ∧ ((gradeQuizAnswer none question ca ua).isCorrect = Json.bool true
        ↔ (min (3 : ℚ) (((fallbackKeywords ca).length : ℚ) / 3))
            ≤ ((fallbackMatched ca ua).length : ℚ))
    ∧ ((gradeQuizAnswer none question ca ua).isCorrect = Json.bool true
        ↔ (3 ≤ (fallbackMatched ca ua).length
           ∨ (fallbackKeywords ca).length ≤ 3 * (fallbackMatched ca ua).length)) := by
  refine ⟨rfl, ?_, ?_⟩
  · show Json.bool (fallbackIsCorrect ca ua) = Json.bool true ↔ _
    rw [show (Json.bool (fallbackIsCorrect ca ua) = Json.bool true)
        ↔ fallbackIsCorrect ca ua = true from ⟨fun h => Json.bool.inj h, fun h => by rw [h]⟩]
    unfold fallbackIsCorrect
    exact decide_eq_true_iff
  · show Json.bool (fallbackIsCorrect ca ua) = Json.bool true ↔ _
    rw [show (Json.bool (fallbackIsCorrect ca ua) = Json.bool true)
        ↔ fallbackIsCorrect ca ua = true from ⟨fun h => Json.bool.inj h, fun h => by rw [h]⟩]
    unfold fallbackIsCorrect
    rw [decide_eq_true_iff]
    exact min_div_le_iff _ _

/-- Example 4 of the specification, settled by the heuristic: reference
answer `"avoid juice; avoid soda; avoid greasy food"`, user answer
`"no juice or soda"`.  The split yields 7 tokens, the matched tokens are
`"juice"` and `"soda"`, and `2 < min(3, 7/3)`, so the fallback marks the
answer incorrect with the key-points feedback. -/
theorem c8_example4 :
    fallbackKeywords "avoid juice; avoid soda; avoid greasy food".toList
      = ["avoid".toList, "juice".toList, "avoid".toList, "soda".toList,
         "avoid".toList, "greasy".toList, "food".toList]
    ∧ fallbackMatched "avoid juice; avoid soda; avoid greasy food".toList
        "no juice or soda".toList = ["juice".toList, "soda".toList]
    ∧ gradeQuizAnswer none "q".toList
        "avoid juice; avoid soda; avoid greasy food".toList
        "no juice or soda".toList
      = ⟨Json.bool false,
         Json.str ("The key points to remember are: avoid juice,  avoid soda. "
           ++ "Try to include these in your answer.").toList⟩ := by
  refine ⟨by decide, by decide, ?_⟩
  show fallbackGrade _ _ = _
  have hic : fallbackIsCorrect "avoid juice; avoid soda; avoid greasy food".toList
      "no juice or soda".toList = false := by
    unfold fallbackIsCorrect
    rw [decide_eq_false_iff_not]
    rw [show fallbackKeywords "avoid juice; avoid soda; avoid greasy food".toList
        = ["avoid".toList, "juice".toList, "avoid".toList, "soda".toList,
           "avoid".toList, "greasy".toList, "food".toList] from by decide]
    rw [show fallbackMatched "avoid juice; avoid soda; avoid greasy food".toList
        "no juice or soda".toList = ["juice".toList, "soda".toList] from by decide]
    rw [min_div_le_iff _ _]
    decide
  unfold fallbackGrade
  rw [hic]
  rfl

/-! ### Claim C9: locating the generated text in the response envelope
(`processDischargeSummary` lines 190-262) -/

/-- The throw sites of the envelope handling, one tag per distinct message. -/
inductive ExtractErr where
  | apiError : ExtractErr
  | noCandidates : ExtractErr
  | maxTokens : ExtractErr
  | noContent : ExtractErr
  | emptyText : ExtractErr
deriving DecidableEq

/-- JavaScript `.length` as a property read: defined for arrays and strings,
`undefined` otherwise. -/
def jsLengthProp : Json → Option Json
  | .arr xs => some (.num xs.length)
  | .str s => some (.num s.length)
  | _ => none

/-- JavaScript `x[0]`: element of an array, one-character string of a
string, `undefined` otherwise. -/
def jsIndex0 : Json → Option Json
  | .arr (x :: _) => some x
  | .arr [] => none
  | .str (c :: _) => some (.str [c])
  | .str [] => none
  | _ => none

/-- `parts && parts.length > 0` (line 226). -/
def partsNonempty (partsO : Option Json) : Bool :=
  truthyO partsO &&
    (match partsO with
     | some v =>
       match jsLengthProp v with
       | some (.num n) => decide (0 < n)
       | _ => false
     | none => false)

/-- Lines 223-261 applied to `parts[0]` when the parts check passed:
`some (.ok text)` for an extracted text, `some (.error .emptyText)` for the
line-260 throw, `none` for a `TypeError` (`.trim()` on a truthy non-string,
or use of a non-string response text downstream). -/
def extractFromPart (part : Json) : Option (Except ExtractErr (List Char)) :=
  if truthyO (getField part "text".toList) then
    match getField part "text".toList with
    | some (.str s) => some (.ok (jsTrim s))
    | _ => none
  else if truthyO (getField part "inlineData".toList) then
    match getField part "inlineData".toList with
    | some inl =>
      match getField inl "data".toList with
      | some v =>
        if truthy v then
          match v with
          | .str s => some (.ok s)
          | _ => none
        else some (.error .emptyText)
      | none => some (.error .emptyText)
    | none => some (.error .emptyText)
  else
    some (.ok (serialize part))

/-- The no-parts branch, lines 236-257: `candidate.text`, then `data.text`,
then `JSON.stringify(data)`. -/
def extractNoParts (data candidate : Json) : Option (Except ExtractErr (List Char)) :=
  if truthyO (getField candidate "text".toList) then
    match getField candidate "text".toList with
    | some (.str s) => some (.ok (jsTrim s))
    | _ => none
  else if truthyO (getField data "text".toList) then
    match getField data "text".toList with
    | some (.str s) => some (.ok (jsTrim s))
    | _ => none
  else
    some (.ok (serialize data))

/-- The line-260 guard applied to an extracted text:
`!responseText || responseText.length === 0`. -/
def finishText (r : Option (Except ExtractErr (List Char))) :
    Option (Except ExtractErr (List Char)) :=
  match r with
  | some (.ok s) => if s.isEmpty then some (.error .emptyText) else some (.ok s)
  | other => other

/-- Lines 190-262: pull the generated text out of the parsed response
envelope `data`.  `some (.error e)` models the distinct throw sites,
`none` a `TypeError` crash inside the `try` block. -/
def extractResponseText (data : Json) : Option (Except ExtractErr (List Char)) :=
  if truthyO (getField data "error".toList) then some (.error .apiError)
  else
    match getField data "candidates".toList with
    | none => some (.error .noCandidates)
    | some cand =>
      if truthy cand = false then some (.error .noCandidates)
      else if jsLengthProp cand = some (Json.num 0) then some (.error .noCandidates)
      else
        match jsIndex0 cand with
        | none => none
        | some candidate =>
          if getField candidate "finishReason".toList
              = some (Json.str "MAX_TOKENS".toList) then some (.error .maxTokens)
          else if truthyO (getField candidate "content".toList) = false then
            some (.error .noContent)
          else
            match getField candidate "content".toList with
            | some content =>
              if partsNonempty (getField content "parts".toList) then
                match getField content "parts".toList with
                | some parts =>
                  match jsIndex0 parts with
                  | some p0 => finishText (extractFromPart p0)
                  | none => none
                | none => none
              else finishText (extractNoParts data candidate)
            | none => none

theorem natDigitsGo_ne_nil (n : Nat) (acc : List Char) (h : acc ≠ []) :
    natDigitsGo n acc ≠ [] := by
  induction n using Nat.strong_induction_on generalizing acc with
  | _ n ih =>
    by_cases h0 : n = 0
    · rw [natDigitsGo, dif_pos h0]; exact h
    · rw [natDigitsGo, dif_neg h0]
      exact ih (n / 10) (Nat.div_lt_self (Nat.pos_of_ne_zero h0) (by decide)) _ (by simp)

theorem natDigits_ne_nil (n : Nat) : natDigits n ≠ [] := by
  unfold natDigits
  by_cases h0 : n = 0
  · rw [if_pos h0]; simp
  · rw [if_neg h0, natDigitsGo, dif_neg h0]
    exact natDigitsGo_ne_nil _ _ (by simp)

theorem intChars_ne_nil (n : Int) : intChars n ≠ [] := by
  unfold intChars
  split
  · simp
  · exact natDigits_ne_nil _

/-- `JSON.stringify` never produces the empty string. -/
theorem serialize_ne_nil (v : Json) : serialize v ≠ [] := by
  cases v with
  | null => simp [serialize]
  | bool b => cases b <;> simp [serialize]
  | num n =>
    rw [show serialize (Json.num n) = intChars n from by rw [serialize]]
    exact intChars_ne_nil n
  | str s => simp [serialize, serStr]
  | arr xs => simp [serialize]
  | obj fs => simp [serialize]

/-- A response whose only part has neither a `text` nor an `inlineData`
field: none of the tolerated shapes yields the generated text. -/
def c9data : Json :=
  Json.obj [("candidates".toList,
    Json.arr [Json.obj [("content".toList,
      Json.obj [("parts".toList,
        Json.arr [Json.obj [("foo".toList, Json.str "x".toList)]])])]])]

/-- **C9** (counterexample).  On `c9data` no tolerated envelope shape yields
the text, yet the client does *not* surface a fatal extraction error: it
continues with `JSON.stringify(parts[0])` as the response text. -/
theorem c9_extraction_error_counterexample :
    extractResponseText c9data
      = some (Except.ok (serialize (Json.obj [("foo".toList, Json.str "x".toList)]))) := by
  decide

/-- **C9** (amended).  When the first candidate's content carries a
non-empty `parts` array whose first element has neither a truthy `text` nor
a truthy `inlineData` field (and no API-error/`MAX_TOKENS`/missing-content
obstacle fired), the client *continues with substitute content*: the
response text becomes `JSON.stringify(parts[0])`, which is never empty, so
the `Could not extract response text` throw is not reached and no fatal
extraction error is surfaced.  (The original claim — a fatal error naming
the attempted shapes — is refuted by `c9_extraction_error_counterexample`;
the line-260 message also only embeds the full response, it does not name
the shapes.) -/
theorem c9_substitute_content_amended
    (data candidate content p0 : Json) (rest ps : List Json)
    (herr : truthyO (getField data "error".toList) = false)
    (hcand : getField data "candidates".toList = some (Json.arr (candidate :: rest)))
    (hfin : ¬ getField candidate "finishReason".toList
        = some (Json.str "MAX_TOKENS".toList))
    (hcont : getField candidate "content".toList = some content)
    (hcontT : truthy content = true)
    (hparts : getField content "parts".toList = some (Json.arr (p0 :: ps)))
    (htext : truthyO (getField p0 "text".toList) = false)
    (hinl : truthyO (getField p0 "inlineData".toList) = false) :
    extractResponseText data = some (Except.ok (serialize p0)) := by
  unfold extractResponseText
  rw [if_neg (show ¬ truthyO (getField data "error".toList) = true from by rw [herr]; simp)]
  simp only [hcand]
  rw [if_neg (show ¬ truthy (Json.arr (candidate :: rest)) = false from by simp [truthy])]
  rw [if_neg (show ¬ jsLengthProp (Json.arr (candidate :: rest)) = some (Json.num 0)
    from by simp only [jsLengthProp, List.length_cons, Option.some.injEq]
            intro hx
            have hx2 := Json.num.inj hx
            omega)]
  simp only [jsIndex0]
  rw [if_neg hfin]
  rw [if_neg (show ¬ truthyO (getField candidate "content".toList) = false
    from by rw [hcont]; simp [truthyO, hcontT])]
  simp only [hcont]
  rw [if_pos (show partsNonempty (getField content "parts".toList) = true
    from by rw [hparts]; simp [partsNonempty, truthyO, truthy, jsLengthProp])]
  simp only [hparts, jsIndex0]
  unfold extractFromPart
  rw [if_neg (show ¬ truthyO (getField p0 "text".toList) = true from by rw [htext]; simp)]
  rw [if_neg (show ¬ truthyO (getField p0 "inlineData".toList) = true
    from by rw [hinl]; simp)]
  show (if (serialize p0).isEmpty = true then some (Except.error ExtractErr.emptyText)
    else some (Except.ok (serialize p0))) = some (Except.ok (serialize p0))
  rw [if_neg (show ¬ (serialize p0).isEmpty = true from by
    simp only [List.isEmpty_iff]
    exact serialize_ne_nil p0)]

/-- A two-candidate, two-part envelope whose first part has neither `text`
nor `inlineData`. -/
def c9wdata : Json :=
  Json.obj [("candidates".toList,
    Json.arr [Json.obj [("content".toList,
      Json.obj [("parts".toList,
        Json.arr [Json.obj [("bar".toList, Json.str "y".toList)], Json.obj []])])],
      Json.obj []])]

/-- Witness for `c9_substitute_content_amended` at the concrete envelope
`c9wdata`: the client answers with the serialization of the first part. -/
theorem c9_substitute_content_witness :
    extractResponseText c9wdata
      = some (Except.ok (serialize (Json.obj [("bar".toList, Json.str "y".toList)]))) :=
  c9_substitute_content_amended c9wdata
    (Json.obj [("content".toList,
      Json.obj [("parts".toList,
        Json.arr [Json.obj [("bar".toList, Json.str "y".toList)], Json.obj []])])])
    (Json.obj [("parts".toList,
      Json.arr [Json.obj [("bar".toList, Json.str "y".toList)], Json.obj []])])
    (Json.obj [("bar".toList, Json.str "y".toList)])
    [Json.obj []] [Json.obj []]
    (by decide) (by decide) (by decide) (by decide) (by decide) (by decide)
    (by decide) (by decide)

/-! ### A model of `JSON.parse` (recursive descent, fuel-indexed; JSON
numbers restricted to integers as in the `Json` model) -/

/-- JSON whitespace (RFC 8259): space, tab, newline, carriage return. -/
def jsonWsChar (c : Char) : Bool := c = ' ' || c = '\t' || c = '\n' || c = '\r'

/-- Skip insignificant whitespace. -/
def skipWs (cs : List Char) : List Char := cs.dropWhile jsonWsChar

/-- ASCII decimal digit. -/
def isDigitCh (c : Char) : Bool := '0' ≤ c && c ≤ '9'

/-- Value of a digit run, most significant digit first. -/
def digitsToNat (ds : List Char) : Nat :=
  ds.foldl (fun a c => 10 * a + (c.toNat - 48)) 0

/-- Parse a maximal run of digits. -/
def parseNat (cs : List Char) : Option (Nat × List Char) :=
  if (cs.takeWhile isDigitCh).isEmpty then none
  else some (digitsToNat (cs.takeWhile isDigitCh), cs.dropWhile isDigitCh)

/-- Parse an integer numeral with optional leading minus. -/
def parseNumber (cs : List Char) : Option (Json × List Char) :=
  match cs with
  | '-' :: rest => (parseNat rest).map fun p => (Json.num (-(p.1 : Int)), p.2)
  | _ => (parseNat cs).map fun p => (Json.num (p.1 : Int), p.2)

/-- Single-character escape sequences of JSON strings. -/
def unescChar (c : Char) : Option Char :=
  if c = '"' then some '"'
  else if c = '\\' then some '\\'
  else if c = '/' then some '/'
  else if c = 'n' then some '\n'
  else if c = 'r' then some '\r'
  else if c = 't' then some '\t'
  else if c = 'b' then some (Char.ofNat 8)
  else if c = 'f' then some (Char.ofNat 12)
  else none

/-- Hexadecimal digit value for `\u` escapes. -/
def hexVal (c : Char) : Option Nat :=
  if '0' ≤ c ∧ c ≤ '9' then some (c.toNat - 48)
  else if 'a' ≤ c ∧ c ≤ 'f' then some (c.toNat - 87)
  else if 'A' ≤ c ∧ c ≤ 'F' then some (c.toNat - 55)
  else none

/-- Body of a string literal after the opening quote: consume up to the
closing quote, decoding escapes; raw control characters are rejected, as
`JSON.parse` does. -/
def parseStringBody : List Char → Option (List Char × List Char)
  | [] => none
  | c :: rest =>
    if c = '"' then some ([], rest)
    else if c = '\\' then
      match rest with
      | [] => none
      | e :: rest2 =>
        if e = 'u' then
          match rest2 with
          | h1 :: h2 :: h3 :: h4 :: rest3 =>
            match hexVal h1, hexVal h2, hexVal h3, hexVal h4 with
            | some a, some b, some x, some d =>
              (parseStringBody rest3).map fun p =>
                (Char.ofNat (((a * 16 + b) * 16 + x) * 16 + d) :: p.1, p.2)
            | _, _, _, _ => none
          | _ => none
        else
          match unescChar e with
          | some u => (parseStringBody rest2).map fun p => (u :: p.1, p.2)
          | none => none
    else if c.toNat < 32 then none
    else (parseStringBody rest).map fun p => (c :: p.1, p.2)

mutual

/-- Parse one JSON value (fuel decreases on every nested parse). -/
def parseVal : Nat → List Char → Option (Json × List Char)
  | 0, _ => none
  | Nat.succ fuel, cs =>
    match skipWs cs with
    | [] => none
    | c :: rest =>
      if c = '"' then
        (parseStringBody rest).map fun p => (Json.str p.1, p.2)
      else if c = lbrace then
        match skipWs rest with
        | c2 :: rest2 =>
          if c2 = rbrace then some (Json.obj [], rest2)
          else (parseMembers fuel (skipWs rest)).map fun p => (Json.obj p.1, p.2)
        | [] => none
      else if c = '[' then
        match skipWs rest with
        | c2 :: rest2 =>
          if c2 = ']' then some (Json.arr [], rest2)
          else (parseElems fuel (skipWs rest)).map fun p => (Json.arr p.1, p.2)
        | [] => none
      else if c = 't' then
        match rest with
        | 'r' :: 'u' :: 'e' :: r => some (Json.bool true, r)
        | _ => none
      else if c = 'f' then
        match rest with
        | 'a' :: 'l' :: 's' :: 'e' :: r => some (Json.bool false, r)
        | _ => none
      else if c = 'n' then
        match rest with
        | 'u' :: 'l' :: 'l' :: r => some (Json.null, r)
        | _ => none
      else if c = '-' || isDigitCh c then parseNumber (c :: rest)
      else none

/-- Parse one or more `key : value` members followed by `}`. -/
def parseMembers : Nat → List Char → Option (List (List Char × Json) × List Char)
  | 0, _ => none
  | Nat.succ fuel, cs =>
    match skipWs cs with
    | c :: rest =>
      if c = '"' then
        match parseStringBody rest with
        | some (k, r1) =>
          match skipWs r1 with
          | ':' :: r2 =>
            match parseVal fuel r2 with
            | some (v, r3) =>
              match skipWs r3 with
              | ',' :: r4 =>
                (parseMembers fuel r4).map fun p => ((k, v) :: p.1, p.2)
              | c5 :: r5 =>
                if c5 = rbrace then some ([(k, v)], r5) else none
              | [] => none
            | none => none
          | _ => none
        | none => none
      else none
    | [] => none

/-- Parse one or more values separated by `,`, followed by `]`. -/
def parseElems : Nat → List Char → Option (List Json × List Char)
  | 0, _ => none
  | Nat.succ fuel, cs =>
    match parseVal fuel cs with
    | some (v, r1) =>
      match skipWs r1 with
      | ',' :: r2 => (parseElems fuel r2).map fun p => (v :: p.1, p.2)
      | c3 :: r3 => if c3 = ']' then some ([v], r3) else none
      | [] => none
    | none => none

end

/-- `JSON.parse`: one value, then nothing but whitespace. -/
def jsonParse (cs : List Char) : Option Json :=
  match parseVal (cs.length + 1) cs with
  | some (v, rest) => if (skipWs rest).isEmpty then some v else none
  | none => none

/-! ### Re-serialization of a normalized summary and the full normalizer -/

/-- `JSON.stringify` view of a sanitized question (object-literal key order
of lines 376-384; an absent `explanation` is `undefined` and is dropped by
`JSON.stringify`). -/
def quizToJson (q : QuizQ) : Json :=
  Json.obj
    ([("id".toList, q.id), ("question".toList, q.question),
      ("options".toList, Json.arr q.options),
      ("correctOptionIndexes".toList, Json.arr (q.correctOptionIndexes.map Json.num)),
      ("category".toList, q.category)]
     ++ (match q.explanation with
         | some e => [("explanation".toList, e)]
         | none => [])
     ++ [("weight".toList, Json.num q.weight)])

/-- `JSON.stringify` view of a normalized summary (insertion order of the
object literal at lines 316-324, `quizQuestions` appended at line 328 when
present). -/
def summaryToJson (s : PediatricSummary) : Json :=
  Json.obj
    ([("simpleExplanation".toList, s.simpleExplanation),
      ("whatToDo".toList, Json.arr s.whatToDo),
      ("whatNotToDo".toList, Json.arr s.whatNotToDo),
      ("redFlags".toList, Json.arr s.redFlags),
      ("medications".toList, Json.arr s.medications),
      ("followUp".toList, Json.arr s.followUp),
      ("expectedCourse".toList, s.expectedCourse)]
     ++ (match s.quizQuestions with
         | some qs => [("quizQuestions".toList, Json.arr (qs.map quizToJson))]
         | none => []))

/-- `JSON.stringify(summary)`. -/
def stringifySummary (s : PediatricSummary) : List Char := serialize (summaryToJson s)

/-- The normalizer pipeline of `processDischargeSummary` lines 267-388:
locate the JSON object, parse it, coerce and sanitize.  `none` models every
thrown error (location failure, parse failure, sanitizer `TypeError`). -/
def normalizeResponse (cs : List Char) : Option PediatricSummary :=
  match extractJson cs with
  | .error _ => none
  | .ok jtext =>
    match jsonParse jtext with
    | none => none
    | some parsed => buildSummary parsed

/-- The raw model output used to refute C7: a single well-formed object
whose `whatToDo` entry holds a literal `{` and whose `simpleExplanation`
holds a literal `}` — ordered so that the first pass balances out. -/
def c7raw : List Char :=
  serialize (Json.obj
    [("whatToDo".toList, Json.arr [Json.str [lbrace]]),
     ("simpleExplanation".toList, Json.str [rbrace])])

/-- The summary the first normalization pass produces for `c7raw`. -/
def c7s : PediatricSummary :=
  ⟨Json.str [rbrace], [Json.str [lbrace]], [], [], [], [],
   Json.str expectedCourseDefault, none⟩

/-- **C7** (counterexample).  The normalizer is *not* idempotent: `c7raw`
normalizes successfully to `c7s`, but re-running the normalizer on the JSON
re-serialization of `c7s` fails (the brace scan truncates inside the
re-serialized `simpleExplanation`, which now precedes `whatToDo`, and the
parse of the truncated text fails), so the second pass does not return
`c7s`. -/
theorem c7_idempotence_counterexample :
    normalizeResponse c7raw = some c7s
    ∧ normalizeResponse (stringifySummary c7s) ≠ some c7s := by
  constructor
  · decide
  · decide

/-! ### Parse/serialize roundtrip -/

mutual

/-- Number of parser steps needed for a value. -/
def jNodes : Json → Nat
  | .null => 1
  | .bool _ => 1
  | .num _ => 1
  | .str _ => 1
  | .arr xs => 1 + jNodesL xs
  | .obj fs => 1 + jNodesF fs

/-- Steps for array elements. -/
def jNodesL : List Json → Nat
  | [] => 0
  | x :: xs => 1 + jNodes x + jNodesL xs

/-- Steps for object members. -/
def jNodesF : List (List Char × Json) → Nat
  | [] => 0
  | (_, v) :: fs => 1 + jNodes v + jNodesF fs

end

theorem jNodes_pos (v : Json) : 1 ≤ jNodes v := by
  cases v <;> simp [jNodes]

/-- Characters that survive a serialize-then-parse roundtrip: printable, or
one of the control characters the serializer escapes. -/
def charCtl (c : Char) : Bool :=
  decide (32 ≤ c.toNat) || c = '\n' || c = '\r' || c = '\t'

theorem psb_quote (rest : List Char) : parseStringBody ('"' :: rest) = some ([], rest) := by
  rw [parseStringBody.eq_def]
  rfl

theorem psb_escape (e u : Char) (rest : List Char) (hne : ¬ e = 'u')
    (hu : unescChar e = some u) :
    parseStringBody ('\\' :: e :: rest)
      = (parseStringBody rest).map fun p => (u :: p.1, p.2) := by
  rw [parseStringBody.eq_def]
  show (if ('\\' : Char) = '"' then some ([], e :: rest)
    else if ('\\' : Char) = '\\' then
      (if e = 'u' then
        (match rest with
          | h1 :: h2 :: h3 :: h4 :: rest3 =>
            match hexVal h1, hexVal h2, hexVal h3, hexVal h4 with
            | some a, some b, some x, some d =>
              (parseStringBody rest3).map fun p =>
                (Char.ofNat (((a * 16 + b) * 16 + x) * 16 + d) :: p.1, p.2)
            | _, _, _, _ => none
          | _ => none)
        else
          match unescChar e with
          | some u => (parseStringBody rest).map fun p => (u :: p.1, p.2)
          | none => none)
    else if Char.toNat '\\' < 32 then none
    else (parseStringBody (e :: rest)).map fun p => ('\\' :: p.1, p.2))
    = (parseStringBody rest).map fun p => (u :: p.1, p.2)
  rw [if_neg (by decide), if_pos rfl, if_neg hne, hu]

theorem psb_plain (c : Char) (rest : List Char) (h1 : ¬ c = '"') (h2 : ¬ c = '\\')
    (h3 : ¬ c.toNat < 32) :
    parseStringBody (c :: rest)
      = (parseStringBody rest).map fun p => (c :: p.1, p.2) := by
  rw [parseStringBody.eq_def]
  show (if c = '"' then some ([], rest)
    else if c = '\\' then
      (match rest with
        | [] => none
        | e :: rest2 =>
          if e = 'u' then
            match rest2 with
            | h1 :: h2 :: h3 :: h4 :: rest3 =>
              match hexVal h1, hexVal h2, hexVal h3, hexVal h4 with
              | some a, some b, some x, some d =>
                (parseStringBody rest3).map fun p =>
                  (Char.ofNat (((a * 16 + b) * 16 + x) * 16 + d) :: p.1, p.2)
              | _, _, _, _ => none
            | _ => none
          else
            match unescChar e with
            | some u => (parseStringBody rest2).map fun p => (u :: p.1, p.2)
            | none => none)
    else if c.toNat < 32 then none
    else (parseStringBody rest).map fun p => (c :: p.1, p.2))
    = (parseStringBody rest).map fun p => (c :: p.1, p.2)
  rw [if_neg h1, if_neg h2, if_neg h3]

theorem parseStringBody_roundtrip (s : List Char) (rest : List Char)
    (hok : s.all charCtl = true) :
    parseStringBody (s.flatMap escChar ++ '"' :: rest) = some (s, rest) := by
  induction s with
  | nil =>
    rw [List.flatMap_nil, List.nil_append]
    exact psb_quote rest
  | cons c s ih =>
    have hc : charCtl c = true := List.all_eq_true.mp hok c (by simp)
    have hs : s.all charCtl = true :=
      List.all_eq_true.mpr fun x hx => List.all_eq_true.mp hok x (by simp [hx])
    have hrec := ih hs
    rw [show (c :: s).flatMap escChar = escChar c ++ s.flatMap escChar from by
      simp [List.flatMap_cons]]
    by_cases h1 : c = '"'
    · subst h1
      rw [show escChar '"' = ['\\', '"'] from rfl]
      simp only [List.cons_append, List.nil_append]
      rw [psb_escape '"' '"' _ (by decide) (by decide), hrec]
      simp
    by_cases h2 : c = '\\'
    · subst h2
      rw [show escChar '\\' = ['\\', '\\'] from rfl]
      simp only [List.cons_append, List.nil_append]
      rw [psb_escape '\\' '\\' _ (by decide) (by decide), hrec]
      simp
    by_cases h3 : c = '\n'
    · subst h3
      rw [show escChar '\n' = ['\\', 'n'] from rfl]
      simp only [List.cons_append, List.nil_append]
      rw [psb_escape 'n' '\n' _ (by decide) (by decide), hrec]
      simp
    by_cases h4 : c = '\x0d'
    · subst h4
      rw [show escChar '\x0d' = ['\\', 'r'] from rfl]
      simp only [List.cons_append, List.nil_append]
      rw [psb_escape 'r' '\x0d' _ (by decide) (by decide), hrec]
      simp
    by_cases h5 : c = '\t'
    · subst h5
      rw [show escChar '\t' = ['\\', 't'] from rfl]
      simp only [List.cons_append, List.nil_append]
      rw [psb_escape 't' '\t' _ (by decide) (by decide), hrec]
      simp
    · have h32 : ¬ c.toNat < 32 := by
        simp only [charCtl, Bool.or_eq_true, decide_eq_true_eq] at hc
        rcases hc with ((hle | h) | h) | h
        · omega
        · exact absurd h h3
        · exact absurd h h4
        · exact absurd h h5
      rw [show escChar c = [c] from by
        rw [escChar, if_neg h1, if_neg h2, if_neg h3, if_neg h4, if_neg h5]]
      simp only [List.cons_append, List.nil_append]
      rw [psb_plain c _ h1 h2 h32, hrec]
      simp

theorem skipWs_cons (c : Char) (cs : List Char) (h : jsonWsChar c = false) :
    skipWs (c :: cs) = c :: cs := by
  simp [skipWs, List.dropWhile_cons, h]

theorem guard_cons (a : Char) (h : isDigitCh a = false) (r : List Char) :
    ∀ c, (a :: r).head? = some c → isDigitCh c = false := by
  intro c hc
  simp only [List.head?_cons, Option.some.injEq] at hc
  rw [← hc]
  exact h

theorem natDigits_digits (m : Nat) : ∀ c ∈ natDigits m, isDigitCh c = true := by
  intro c hc
  unfold natDigits at hc
  have hmem : c ∈ ['0', '1', '2', '3', '4', '5', '6', '7', '8', '9'] := by
    split at hc
    · simp only [List.mem_singleton] at hc
      rw [hc]; decide
    · rcases natDigitsGo_sub m [] c hc with h | h
      · exact h
      · simp at h
  have h10 : c = '0' ∨ c = '1' ∨ c = '2' ∨ c = '3' ∨ c = '4' ∨ c = '5' ∨ c = '6' ∨
      c = '7' ∨ c = '8' ∨ c = '9' := by simpa using hmem
  rcases h10 with rfl | rfl | rfl | rfl | rfl | rfl | rfl | rfl | rfl | rfl <;> decide

theorem digitChar_toNat (d : Nat) (h : d < 10) : (digitChar d).toNat - 48 = d := by
  interval_cases d <;> decide

theorem foldl_natDigitsGo (n : Nat) (acc : List Char) :
    List.foldl (fun a c => 10 * a + (c.toNat - 48)) 0 (natDigitsGo n acc)
      = List.foldl (fun a c => 10 * a + (c.toNat - 48)) n acc := by
  induction n using Nat.strong_induction_on generalizing acc with
  | _ n ih =>
    by_cases h0 : n = 0
    · rw [natDigitsGo, dif_pos h0, h0]
    · rw [natDigitsGo, dif_neg h0]
      rw [ih (n / 10) (Nat.div_lt_self (Nat.pos_of_ne_zero h0) (by decide))]
      rw [List.foldl_cons]
      have hd : 10 * (n / 10) + ((digitChar (n % 10)).toNat - 48) = n := by
        rw [digitChar_toNat (n % 10) (Nat.mod_lt n (by decide))]
        omega
      rw [hd]

theorem digitsToNat_natDigits (m : Nat) : digitsToNat (natDigits m) = m := by
  unfold natDigits digitsToNat
  by_cases h0 : m = 0
  · rw [if_pos h0]
    subst h0
    decide
  · rw [if_neg h0]
    simpa using foldl_natDigitsGo m []

theorem takeDropWhile_append (ds rest : List Char) (p : Char → Bool)
    (hds : ∀ c ∈ ds, p c = true) (hrest : ∀ c, rest.head? = some c → p c = false) :
    (ds ++ rest).takeWhile p = ds ∧ (ds ++ rest).dropWhile p = rest := by
  induction ds with
  | nil =>
    simp only [List.nil_append]
    cases rest with
    | nil => simp
    | cons c r =>
      have hc := hrest c rfl
      simp [List.takeWhile_cons, List.dropWhile_cons, hc]
  | cons d ds ih =>
    have hd : p d = true := hds d (by simp)
    have ih2 := ih (fun c hc => hds c (by simp [hc]))
    simp only [List.cons_append, List.takeWhile_cons, List.dropWhile_cons, hd, if_true]
    constructor
    · rw [ih2.1]
    · exact ih2.2

theorem parseNat_digits (m : Nat) (rest : List Char)
    (hrest : ∀ c, rest.head? = some c → isDigitCh c = false) :
    parseNat (natDigits m ++ rest) = some (m, rest) := by
  obtain ⟨ht, hd⟩ := takeDropWhile_append (natDigits m) rest isDigitCh
    (natDigits_digits m) hrest
  unfold parseNat
  rw [ht, hd, if_neg (by
    simp only [List.isEmpty_iff]
    exact natDigits_ne_nil m)]
  rw [digitsToNat_natDigits]

theorem parseNumber_roundtrip (n : Int) (rest : List Char)
    (hrest : ∀ c, rest.head? = some c → isDigitCh c = false) :
    parseNumber (intChars n ++ rest) = some (Json.num n, rest) := by
  unfold intChars
  split_ifs with hneg
  · show parseNumber ('-' :: (natDigits n.natAbs ++ rest)) = some (Json.num n, rest)
    rw [show parseNumber ('-' :: (natDigits n.natAbs ++ rest))
        = (parseNat (natDigits n.natAbs ++ rest)).map
            (fun p => (Json.num (-(p.1 : Int)), p.2)) from rfl]
    rw [parseNat_digits _ _ hrest]
    simp only [Option.map_some', Option.some.injEq, Prod.mk.injEq, Json.num.injEq]
    refine ⟨by omega, ?_⟩
    trivial
  · cases hnd : natDigits n.natAbs with
    | nil => exact absurd hnd (natDigits_ne_nil _)
    | cons d ds =>
      have hdd : isDigitCh d = true := natDigits_digits n.natAbs d (by rw [hnd]; simp)
      have hdm : ¬ d = '-' := by
        intro h
        rw [h] at hdd
        exact absurd hdd (by decide)
      rw [List.cons_append, parseNumber.eq_def]
      split
      · rename_i heq
        injection heq with h1 _
        exact absurd h1 hdm
      · rw [← List.cons_append, ← hnd, parseNat_digits _ _ hrest]
        simp only [Option.map_some', Option.some.injEq, Prod.mk.injEq, Json.num.injEq]
        refine ⟨by omega, ?_⟩
        trivial


theorem isDigitCh_elim (d : Char) (hd : isDigitCh d = true) :
    jsonWsChar d = false ∧ ¬ d = '"' ∧ ¬ d = lbrace ∧ ¬ d = '[' ∧ ¬ d = 't' ∧
      ¬ d = 'f' ∧ ¬ d = 'n' ∧ ¬ d = ']' ∧ ¬ d = rbrace := by
  refine ⟨?_, ?_, ?_, ?_, ?_, ?_, ?_, ?_, ?_⟩
  · cases hw : jsonWsChar d
    · rfl
    · exfalso
      simp only [jsonWsChar, Bool.or_eq_true, decide_eq_true_eq] at hw
      rcases hw with ((rfl | rfl) | rfl) | rfl <;> exact absurd hd (by decide)
  all_goals intro h
  all_goals rw [h] at hd
  all_goals exact absurd hd (by decide)

theorem serialize_head (v : Json) :
    ∃ d ds, serialize v = d :: ds ∧ jsonWsChar d = false ∧ ¬ d = ']' := by
  cases v with
  | null => exact ⟨'n', ['u', 'l', 'l'], by rw [serialize]; rfl, by decide, by decide⟩
  | bool b =>
    cases b with
    | false => exact ⟨'f', ['a', 'l', 's', 'e'], by rw [serialize]; rfl, by decide, by decide⟩
    | true => exact ⟨'t', ['r', 'u', 'e'], by rw [serialize]; rfl, by decide, by decide⟩
  | num n =>
    rw [show serialize (Json.num n) = intChars n from by rw [serialize]]
    unfold intChars
    split_ifs with hneg
    · exact ⟨'-', natDigits n.natAbs, rfl, by decide, by decide⟩
    · cases hnd : natDigits n.natAbs with
      | nil => exact absurd hnd (natDigits_ne_nil _)
      | cons d ds =>
        have hdd : isDigitCh d = true := natDigits_digits n.natAbs d (by rw [hnd]; simp)
        obtain ⟨hws, -, -, -, -, -, -, hrb, -⟩ := isDigitCh_elim d hdd
        exact ⟨d, ds, rfl, hws, hrb⟩
  | str s =>
    exact ⟨'"', s.flatMap escChar ++ ['"'], by rw [serialize, serStr], by decide, by decide⟩
  | arr xs =>
    exact ⟨'[', serArr xs ++ [']'], by rw [serialize], by decide, by decide⟩
  | obj fs =>
    exact ⟨lbrace, serObj fs ++ [rbrace], by rw [serialize], by decide, by decide⟩

theorem serArr_cons_ex (x : Json) (xs : List Json) :
    ∃ t, serArr (x :: xs) = serialize x ++ t := by
  cases xs with
  | nil => exact ⟨[], by rw [serArr, List.append_nil]⟩
  | cons y ys => exact ⟨',' :: serArr (y :: ys), by rw [serArr]⟩

theorem parseVal_succ (f : Nat) (d : Char) (rest : List Char) (hws : jsonWsChar d = false) :
    parseVal (Nat.succ f) (d :: rest)
      = (if d = '"' then
          (parseStringBody rest).map fun p => (Json.str p.1, p.2)
        else if d = lbrace then
          match skipWs rest with
          | c2 :: rest2 =>
            if c2 = rbrace then some (Json.obj [], rest2)
            else (parseMembers f (skipWs rest)).map fun p => (Json.obj p.1, p.2)
          | [] => none
        else if d = '[' then
          match skipWs rest with
          | c2 :: rest2 =>
            if c2 = ']' then some (Json.arr [], rest2)
            else (parseElems f (skipWs rest)).map fun p => (Json.arr p.1, p.2)
          | [] => none
        else if d = 't' then
          match rest with
          | 'r' :: 'u' :: 'e' :: r => some (Json.bool true, r)
          | _ => none
        else if d = 'f' then
          match rest with
          | 'a' :: 'l' :: 's' :: 'e' :: r => some (Json.bool false, r)
          | _ => none
        else if d = 'n' then
          match rest with
          | 'u' :: 'l' :: 'l' :: r => some (Json.null, r)
          | _ => none
        else if d = '-' || isDigitCh d then parseNumber (d :: rest)
        else none) := by
  have hsw : skipWs (d :: rest) = d :: rest := skipWs_cons d rest hws
  rw [parseVal.eq_def]
  show ((match skipWs (d :: rest) with
    | [] => none
    | c :: rest3 =>
      if c = '"' then
        (parseStringBody rest3).map fun p => (Json.str p.1, p.2)
      else if c = lbrace then
        match skipWs rest3 with
        | c2 :: rest2 =>
          if c2 = rbrace then some (Json.obj [], rest2)
          else (parseMembers f (skipWs rest3)).map fun p => (Json.obj p.1, p.2)
        | [] => none
      else if c = '[' then
        match skipWs rest3 with
        | c2 :: rest2 =>
          if c2 = ']' then some (Json.arr [], rest2)
          else (parseElems f (skipWs rest3)).map fun p => (Json.arr p.1, p.2)
        | [] => none
      else if c = 't' then
        match rest3 with
        | 'r' :: 'u' :: 'e' :: r => some (Json.bool true, r)
        | _ => none
      else if c = 'f' then
        match rest3 with
        | 'a' :: 'l' :: 's' :: 'e' :: r => some (Json.bool false, r)
        | _ => none
      else if c = 'n' then
        match rest3 with
        | 'u' :: 'l' :: 'l' :: r => some (Json.null, r)
        | _ => none
      else if c = '-' || isDigitCh c then parseNumber (c :: rest3)
      else none : Option (Json × List Char))) = _
  rw [hsw]

theorem parseMembers_succ (f : Nat) (cs : List Char) :
    parseMembers (Nat.succ f) cs
      = (match skipWs cs with
        | c :: rest =>
          if c = '"' then
            match parseStringBody rest with
            | some (k, r1) =>
              match skipWs r1 with
              | ':' :: r2 =>
                match parseVal f r2 with
                | some (v, r3) =>
                  match skipWs r3 with
                  | ',' :: r4 =>
                    (parseMembers f r4).map fun p => ((k, v) :: p.1, p.2)
                  | c5 :: r5 =>
                    if c5 = rbrace then some ([(k, v)], r5) else none
                  | [] => none
                | none => none
              | _ => none
            | none => none
          else none
        | [] => none) := by
  rw [parseMembers.eq_def]

theorem parseElems_succ (f : Nat) (cs : List Char) :
    parseElems (Nat.succ f) cs
      = (match parseVal f cs with
        | some (v, r1) =>
          match skipWs r1 with
          | ',' :: r2 => (parseElems f r2).map fun p => (v :: p.1, p.2)
          | c3 :: r3 => if c3 = ']' then some ([v], r3) else none
          | [] => none
        | none => none) := by
  rw [parseElems.eq_def]

theorem serObj_cons_ex (k : List Char) (v : Json) (fs : List (List Char × Json)) :
    ∃ t, serObj ((k, v) :: fs) = serStr k ++ t := by
  cases fs with
  | nil => exact ⟨':' :: serialize v, by rw [serObj]⟩
  | cons m fs2 =>
    exact ⟨':' :: (serialize v ++ ',' :: serObj (m :: fs2)), by rw [serObj]; simp⟩

theorem parseVal_number (f : Nat) (n : Int) (rest : List Char)
    (hg : ∀ c, rest.head? = some c → isDigitCh c = false) :
    parseVal (Nat.succ f) (intChars n ++ rest) = some (Json.num n, rest) := by
  have hhead : ∃ d ds, intChars n = d :: ds ∧ (d = '-' ∨ isDigitCh d = true) := by
    unfold intChars
    split_ifs with hneg
    · exact ⟨'-', natDigits n.natAbs, rfl, Or.inl rfl⟩
    · cases hnd : natDigits n.natAbs with
      | nil => exact absurd hnd (natDigits_ne_nil _)
      | cons d ds =>
        exact ⟨d, ds, rfl, Or.inr (natDigits_digits _ d (by rw [hnd]; simp))⟩
  obtain ⟨d, ds, hds, hdor⟩ := hhead
  have hfacts : jsonWsChar d = false ∧ ¬ d = '"' ∧ ¬ d = lbrace ∧ ¬ d = '[' ∧
      ¬ d = 't' ∧ ¬ d = 'f' ∧ ¬ d = 'n' := by
    rcases hdor with rfl | hd
    · exact ⟨by decide, by decide, by decide, by decide, by decide, by decide, by decide⟩
    · obtain ⟨h1, h2, h3, h4, h5, h6, h7, -, -⟩ := isDigitCh_elim d hd
      exact ⟨h1, h2, h3, h4, h5, h6, h7⟩
  obtain ⟨hw, h1, h2, h3, h4, h5, h6⟩ := hfacts
  have hcond : (d = '-' || isDigitCh d) = true := by
    rcases hdor with rfl | hd
    · decide
    · simp [hd]
  rw [hds, List.cons_append, parseVal_succ f d (ds ++ rest) hw]
  rw [if_neg h1, if_neg h2, if_neg h3, if_neg h4, if_neg h5, if_neg h6, if_pos hcond]
  rw [← List.cons_append, ← hds]
  exact parseNumber_roundtrip n rest hg

mutual

theorem parse_serialize (fuel : Nat) (v : Json) (rest : List Char)
    (hok : strsAll charCtl v = true) (hfe : jNodes v ≤ fuel)
    (hg : ∀ c, rest.head? = some c → isDigitCh c = false) :
    parseVal fuel (serialize v ++ rest) = some (v, rest) := by
  obtain ⟨f, rfl⟩ : ∃ f, fuel = Nat.succ f := by
    cases fuel with
    | zero => exact absurd hfe (by have := jNodes_pos v; omega)
    | succ f => exact ⟨f, rfl⟩
  cases v with
  | null =>
    rw [show serialize Json.null ++ rest = 'n' :: 'u' :: 'l' :: 'l' :: rest from by
      rw [serialize]; rfl]
    rw [parseVal_succ f 'n' _ (by decide)]
    rw [if_neg (by decide), if_neg (by decide), if_neg (by decide), if_neg (by decide),
      if_neg (by decide)]
    rfl
  | bool b =>
    cases b with
    | true =>
      rw [show serialize (Json.bool true) ++ rest = 't' :: 'r' :: 'u' :: 'e' :: rest from by
        rw [serialize]; rfl]
      rw [parseVal_succ f 't' _ (by decide), if_neg (by decide), if_neg (by decide),
        if_neg (by decide)]
      rfl
    | false =>
      rw [show serialize (Json.bool false) ++ rest
          = 'f' :: 'a' :: 'l' :: 's' :: 'e' :: rest from by rw [serialize]; rfl]
      rw [parseVal_succ f 'f' _ (by decide), if_neg (by decide), if_neg (by decide),
        if_neg (by decide), if_neg (by decide)]
      rfl
  | num n =>
    rw [show serialize (Json.num n) = intChars n from by rw [serialize]]
    exact parseVal_number f n rest hg
  | str s =>
    rw [show serialize (Json.str s) ++ rest = '"' :: (s.flatMap escChar ++ '"' :: rest)
        from by rw [serialize, serStr]; simp [List.append_assoc]]
    rw [parseVal_succ f '"' _ (by decide), if_pos rfl]
    rw [parseStringBody_roundtrip s rest (by rw [strsAll] at hok; exact hok)]
    rfl
  | arr xs =>
    cases xs with
    | nil =>
      rw [show serialize (Json.arr []) ++ rest = '[' :: ']' :: rest from by
        rw [serialize, serArr]; rfl]
      rw [parseVal_succ f '[' _ (by decide), if_neg (by decide), if_neg (by decide),
        if_pos rfl]
      rw [skipWs_cons ']' rest (by decide)]
      rfl
    | cons x xs2 =>
      obtain ⟨t, hst⟩ := serArr_cons_ex x xs2
      obtain ⟨d, ds, hsx, hws, hne⟩ := serialize_head x
      have hfe2 : jNodesL (x :: xs2) ≤ f := by
        rw [jNodes] at hfe
        omega
      have hokL : strsAllL charCtl (x :: xs2) = true := by rw [strsAll] at hok; exact hok
      have hcons : serArr (x :: xs2) ++ ']' :: rest = d :: (ds ++ (t ++ ']' :: rest)) := by
        rw [hst, hsx]
        simp [List.append_assoc]
      have hskip : skipWs (serArr (x :: xs2) ++ ']' :: rest)
          = serArr (x :: xs2) ++ ']' :: rest := by
        rw [hcons]
        exact skipWs_cons d _ hws
      have hre := parse_serArr f x xs2 rest hokL hfe2
      rw [show serialize (Json.arr (x :: xs2)) ++ rest
          = '[' :: (serArr (x :: xs2) ++ ']' :: rest) from by
        rw [serialize]; simp [List.append_assoc]]
      rw [parseVal_succ f '[' _ (by decide), if_neg (by decide), if_neg (by decide),
        if_pos rfl]
      rw [hskip]
      split
      · rename_i c2 rest2 heq
        rw [hcons] at heq
        injection heq with hd2 hr2
        rw [if_neg (by rw [← hd2]; exact hne), hre]
        rfl
      · rename_i heq
        rw [hcons] at heq
        exact absurd heq (by simp)
  | obj fs =>
    cases fs with
    | nil =>
      rw [show serialize (Json.obj []) ++ rest = lbrace :: rbrace :: rest from by
        rw [serialize, serObj]; rfl]
      rw [parseVal_succ f lbrace _ (by decide), if_neg (by decide), if_pos rfl]
      rw [skipWs_cons rbrace rest (by decide)]
      rfl
    | cons kv fs2 =>
      obtain ⟨k, v⟩ := kv
      obtain ⟨t, hso⟩ := serObj_cons_ex k v fs2
      have hfe2 : jNodesF ((k, v) :: fs2) ≤ f := by
        rw [jNodes] at hfe
        omega
      have hokF : strsAllF charCtl ((k, v) :: fs2) = true := by
        rw [strsAll] at hok
        exact hok
      have hcons : serObj ((k, v) :: fs2) ++ rbrace :: rest
          = '"' :: ((k.flatMap escChar ++ ['"']) ++ (t ++ rbrace :: rest)) := by
        rw [hso, serStr]
        simp [List.append_assoc]
      have hskip : skipWs (serObj ((k, v) :: fs2) ++ rbrace :: rest)
          = serObj ((k, v) :: fs2) ++ rbrace :: rest := by
        rw [hcons]
        exact skipWs_cons '"' _ (by decide)
      have hre := parse_serObj f k v fs2 rest hokF hfe2
      rw [show serialize (Json.obj ((k, v) :: fs2)) ++ rest
          = lbrace :: (serObj ((k, v) :: fs2) ++ rbrace :: rest) from by
        rw [serialize]; simp [List.append_assoc]]
      rw [parseVal_succ f lbrace _ (by decide), if_neg (by decide), if_pos rfl]
      rw [hskip]
      split
      · rename_i c2 rest2 heq
        rw [hcons] at heq
        injection heq with hd2 hr2
        rw [if_neg (by rw [← hd2]; decide), hre]
        rfl
      · rename_i heq
        rw [hcons] at heq
        exact absurd heq (by simp)
termination_by fuel

theorem parse_serObj (fuel : Nat) (k : List Char) (v : Json)
    (fs : List (List Char × Json)) (rest : List Char)
    (hok : strsAllF charCtl ((k, v) :: fs) = true)
    (hfe : jNodesF ((k, v) :: fs) ≤ fuel) :
    parseMembers fuel (serObj ((k, v) :: fs) ++ rbrace :: rest)
      = some ((k, v) :: fs, rest) := by
  obtain ⟨g, rfl⟩ : ∃ g, fuel = Nat.succ g := by
    cases fuel with
    | zero =>
      exfalso
      rw [jNodesF] at hfe
      omega
    | succ g => exact ⟨g, rfl⟩
  rw [strsAllF] at hok
  simp only [Bool.and_eq_true] at hok
  obtain ⟨⟨hk, hv⟩, hfs⟩ := hok
  rw [jNodesF] at hfe
  cases fs with
  | nil =>
    have hL : serObj [(k, v)] ++ rbrace :: rest
        = '"' :: (k.flatMap escChar ++ '"' :: (':' :: (serialize v ++ rbrace :: rest))) := by
      rw [serObj, serStr]
      simp [List.append_assoc]
    have hps := parseStringBody_roundtrip k (':' :: (serialize v ++ rbrace :: rest)) hk
    have hpv := parse_serialize g v (rbrace :: rest) hv (by omega)
      (guard_cons rbrace (by decide) rest)
    have hw1 : skipWs (':' :: (serialize v ++ rbrace :: rest))
        = ':' :: (serialize v ++ rbrace :: rest) := skipWs_cons _ _ (by decide)
    have hw2 : skipWs (rbrace :: rest) = rbrace :: rest := skipWs_cons _ _ (by decide)
    rw [parseMembers_succ, hL, skipWs_cons '"' _ (by decide)]
    simp only [hps, hw1, hpv, hw2] <;> rfl
  | cons m fs2 =>
    obtain ⟨k2, v2⟩ := m
    have hL : serObj ((k, v) :: (k2, v2) :: fs2) ++ rbrace :: rest
        = '"' :: (k.flatMap escChar ++ '"' :: (':' :: (serialize v ++ ',' ::
            (serObj ((k2, v2) :: fs2) ++ rbrace :: rest)))) := by
      rw [serObj, serStr]
      simp [List.append_assoc]
    have hps := parseStringBody_roundtrip k
      (':' :: (serialize v ++ ',' :: (serObj ((k2, v2) :: fs2) ++ rbrace :: rest))) hk
    have hpv := parse_serialize g v
      (',' :: (serObj ((k2, v2) :: fs2) ++ rbrace :: rest)) hv (by omega)
      (guard_cons ',' (by decide) _)
    have hrec := parse_serObj g k2 v2 fs2 rest hfs (by
      rw [jNodesF] at hfe ⊢
      omega)
    have hw1 : skipWs (':' :: (serialize v ++ ',' ::
        (serObj ((k2, v2) :: fs2) ++ rbrace :: rest)))
        = ':' :: (serialize v ++ ',' :: (serObj ((k2, v2) :: fs2) ++ rbrace :: rest)) :=
      skipWs_cons _ _ (by decide)
    have hw2 : skipWs (',' :: (serObj ((k2, v2) :: fs2) ++ rbrace :: rest))
        = ',' :: (serObj ((k2, v2) :: fs2) ++ rbrace :: rest) :=
      skipWs_cons _ _ (by decide)
    rw [parseMembers_succ, hL, skipWs_cons '"' _ (by decide)]
    simp only [hps, hw1, hpv, hw2, hrec] <;> rfl
termination_by fuel

theorem parse_serArr (fuel : Nat) (x : Json) (xs : List Json) (rest : List Char)
    (hok : strsAllL charCtl (x :: xs) = true)
    (hfe : jNodesL (x :: xs) ≤ fuel) :
    parseElems fuel (serArr (x :: xs) ++ ']' :: rest) = some (x :: xs, rest) := by
  obtain ⟨g, rfl⟩ : ∃ g, fuel = Nat.succ g := by
    cases fuel with
    | zero =>
      exfalso
      rw [jNodesL] at hfe
      omega
    | succ g => exact ⟨g, rfl⟩
  rw [strsAllL] at hok
  simp only [Bool.and_eq_true] at hok
  obtain ⟨hx, hxs⟩ := hok
  rw [jNodesL] at hfe
  cases xs with
  | nil =>
    have hL : serArr [x] ++ ']' :: rest = serialize x ++ ']' :: rest := by rw [serArr]
    have hpv := parse_serialize g x (']' :: rest) hx (by omega)
      (guard_cons ']' (by decide) _)
    have hw2 : skipWs (']' :: rest) = ']' :: rest := skipWs_cons _ _ (by decide)
    rw [parseElems_succ, hL]
    simp only [hpv, hw2] <;> rfl
  | cons y xs2 =>
    have hL : serArr (x :: y :: xs2) ++ ']' :: rest
        = serialize x ++ ',' :: (serArr (y :: xs2) ++ ']' :: rest) := by
      rw [serArr]
      simp [List.append_assoc]
    have hpv := parse_serialize g x (',' :: (serArr (y :: xs2) ++ ']' :: rest)) hx
      (by omega) (guard_cons ',' (by decide) _)
    have hrec := parse_serArr g y xs2 rest hxs (by
      rw [jNodesL] at hfe ⊢
      omega)
    have hw2 : skipWs (',' :: (serArr (y :: xs2) ++ ']' :: rest))
        = ',' :: (serArr (y :: xs2) ++ ']' :: rest) := skipWs_cons _ _ (by decide)
    rw [parseElems_succ, hL]
    simp only [hpv, hw2, hrec] <;> rfl
termination_by fuel

end

mutual

theorem jNodes_le : ∀ v : Json, jNodes v ≤ (serialize v).length
  | .null => by rw [serialize]; simp [jNodes]
  | .bool b => by cases b <;> (rw [serialize]; simp [jNodes])
  | .num n => by
      rw [show serialize (Json.num n) = intChars n from by rw [serialize]]
      have hne := intChars_ne_nil n
      have hlen : 1 ≤ (intChars n).length := by
        cases h : intChars n with
        | nil => exact absurd h hne
        | cons a t => simp
      simpa [jNodes] using hlen
  | .str s => by
      rw [serialize, serStr]
      simp [jNodes]
  | .arr xs => by
      rw [serialize]
      have h := jNodesL_le xs
      simp only [jNodes, List.length_cons, List.length_append]
      omega
  | .obj fs => by
      rw [serialize]
      have h := jNodesF_le fs
      simp only [jNodes, List.length_cons, List.length_append]
      omega

theorem jNodesL_le : ∀ xs : List Json, jNodesL xs ≤ (serArr xs).length + 1
  | [] => by rw [serArr]; simp [jNodesL]
  | [x] => by
      rw [serArr]
      have h := jNodes_le x
      simp only [jNodesL]
      omega
  | x :: y :: xs => by
      rw [serArr]
      have h1 := jNodes_le x
      have h2 := jNodesL_le (y :: xs)
      simp only [jNodesL] at h2
      simp only [jNodesL, List.length_append, List.length_cons]
      omega

theorem jNodesF_le : ∀ fs : List (List Char × Json), jNodesF fs ≤ (serObj fs).length + 1
  | [] => by rw [serObj]; simp [jNodesF]
  | [(k, v)] => by
      rw [serObj]
      have h := jNodes_le v
      simp only [jNodesF, List.length_append, List.length_cons]
      omega
  | (k, v) :: (k2, v2) :: fs => by
      rw [serObj]
      have h1 := jNodes_le v
      have h2 := jNodesF_le ((k2, v2) :: fs)
      simp only [jNodesF] at h2
      simp only [jNodesF, List.length_append, List.length_cons]
      omega

end

/-- `JSON.parse` inverts the model serializer on values whose strings hold
no unescaped control characters. -/
theorem jsonParse_serialize (v : Json) (hok : strsAll charCtl v = true) :
    jsonParse (serialize v) = some v := by
  have h := parse_serialize ((serialize v).length + 1) v [] hok
    (by have := jNodes_le v; omega) (by intro c hc; simp at hc)
  rw [List.append_nil] at h
  unfold jsonParse
  rw [h]
  rfl

/-- The fence-strip plus brace-scan extraction is the identity on a
serialized object whose strings hold no braces and no backticks. -/
theorem extractJson_serialize_obj (fs : List (List Char × Json))
    (hstr : strsAllF charBB fs = true) :
    extractJson (serialize (Json.obj fs)) = .ok (serialize (Json.obj fs)) := by
  have hgood : GoodBlock (serObj fs) := serObj_good fs hstr
  have hSgood : GoodBlock (serialize (Json.obj fs)) :=
    ser_good (Json.obj fs) (by rw [strsAll]; exact hstr)
  have hS := serialize_obj_eq fs
  have hlastS : (serialize (Json.obj fs)).getLast? = some rbrace := by
    rw [hS,
      show lbrace :: (serObj fs ++ [rbrace]) = (lbrace :: serObj fs) ++ [rbrace] from rfl,
      List.getLast?_concat]
  have hhead : ¬ (serialize (Json.obj fs)).head? = some btick := by
    intro hx
    rw [hS] at hx
    simp only [List.head?_cons, Option.some.injEq] at hx
    exact absurd hx (by decide)
  have h4 : replaceCloseFence (serialize (Json.obj fs)) = serialize (Json.obj fs) := by
    have hr := replaceCloseFence_append (serialize (Json.obj fs)) [] hSgood.2 hlastS
    rw [List.append_nil] at hr
    rw [hr, show replaceCloseFence [] = [] from rfl, List.append_nil]
  unfold extractJson stripFences
  rw [stripFenceOpenJson_id _ hhead, h4, stripFenceOpen3_id _ hhead, h4]
  have hfin := extractJsonCore_obj fs [] [] hgood.1 (by simp)
  rw [show ([] : List Char) ++ (lbrace :: ((serObj fs ++ [rbrace]) ++ ([] : List Char)))
      = serialize (Json.obj fs) from by rw [hS]; simp] at hfin
  exact hfin

/-! ### Re-coercion: the sanitizer and coercion are the identity on
well-formed re-serialized summaries -/

theorem truthy_quizToJson (q : QuizQ) : truthy (quizToJson q) = true := rfl

theorem quizToJson_id : ∀ q : QuizQ, getField (quizToJson q) "id".toList = some q.id
  | ⟨i, qv, o, ix, c, none, w⟩ => rfl
  | ⟨i, qv, o, ix, c, some e, w⟩ => rfl

theorem quizToJson_question :
    ∀ q : QuizQ, getField (quizToJson q) "question".toList = some q.question
  | ⟨i, qv, o, ix, c, none, w⟩ => rfl
  | ⟨i, qv, o, ix, c, some e, w⟩ => rfl

theorem quizToJson_options :
    ∀ q : QuizQ, getField (quizToJson q) "options".toList = some (Json.arr q.options)
  | ⟨i, qv, o, ix, c, none, w⟩ => rfl
  | ⟨i, qv, o, ix, c, some e, w⟩ => rfl

theorem quizToJson_indexes :
    ∀ q : QuizQ, getField (quizToJson q) "correctOptionIndexes".toList
      = some (Json.arr (q.correctOptionIndexes.map Json.num))
  | ⟨i, qv, o, ix, c, none, w⟩ => rfl
  | ⟨i, qv, o, ix, c, some e, w⟩ => rfl

theorem quizToJson_category :
    ∀ q : QuizQ, getField (quizToJson q) "category".toList = some q.category
  | ⟨i, qv, o, ix, c, none, w⟩ => rfl
  | ⟨i, qv, o, ix, c, some e, w⟩ => rfl

theorem quizToJson_explanation :
    ∀ q : QuizQ, getField (quizToJson q) "explanation".toList = q.explanation
  | ⟨i, qv, o, ix, c, none, w⟩ => rfl
  | ⟨i, qv, o, ix, c, some e, w⟩ => rfl

theorem quizToJson_weight :
    ∀ q : QuizQ, getField (quizToJson q) "weight".toList = some (Json.num q.weight)
  | ⟨i, qv, o, ix, c, none, w⟩ => rfl
  | ⟨i, qv, o, ix, c, some e, w⟩ => rfl

theorem summaryToJson_simpleExplanation :
    ∀ s : PediatricSummary, getField (summaryToJson s) "simpleExplanation".toList
      = some s.simpleExplanation
  | ⟨a, b, c, d, e, f, g, none⟩ => rfl
  | ⟨a, b, c, d, e, f, g, some qs⟩ => rfl

theorem summaryToJson_whatToDo :
    ∀ s : PediatricSummary, getField (summaryToJson s) "whatToDo".toList
      = some (Json.arr s.whatToDo)
  | ⟨a, b, c, d, e, f, g, none⟩ => rfl
  | ⟨a, b, c, d, e, f, g, some qs⟩ => rfl

theorem summaryToJson_whatNotToDo :
    ∀ s : PediatricSummary, getField (summaryToJson s) "whatNotToDo".toList
      = some (Json.arr s.whatNotToDo)
  | ⟨a, b, c, d, e, f, g, none⟩ => rfl
  | ⟨a, b, c, d, e, f, g, some qs⟩ => rfl

theorem summaryToJson_redFlags :
    ∀ s : PediatricSummary, getField (summaryToJson s) "redFlags".toList
      = some (Json.arr s.redFlags)
  | ⟨a, b, c, d, e, f, g, none⟩ => rfl
  | ⟨a, b, c, d, e, f, g, some qs⟩ => rfl

theorem summaryToJson_medications :
    ∀ s : PediatricSummary, getField (summaryToJson s) "medications".toList
      = some (Json.arr s.medications)
  | ⟨a, b, c, d, e, f, g, none⟩ => rfl
  | ⟨a, b, c, d, e, f, g, some qs⟩ => rfl

theorem summaryToJson_followUp :
    ∀ s : PediatricSummary, getField (summaryToJson s) "followUp".toList
      = some (Json.arr s.followUp)
  | ⟨a, b, c, d, e, f, g, none⟩ => rfl
  | ⟨a, b, c, d, e, f, g, some qs⟩ => rfl

theorem summaryToJson_expectedCourse :
    ∀ s : PediatricSummary, getField (summaryToJson s) "expectedCourse".toList
      = some s.expectedCourse
  | ⟨a, b, c, d, e, f, g, none⟩ => rfl
  | ⟨a, b, c, d, e, f, g, some qs⟩ => rfl

theorem summaryToJson_quiz :
    ∀ s : PediatricSummary, getField (summaryToJson s) "quizQuestions".toList
      = s.quizQuestions.map fun qs => Json.arr (qs.map quizToJson)
  | ⟨a, b, c, d, e, f, g, none⟩ => rfl
  | ⟨a, b, c, d, e, f, g, some qs⟩ => rfl

theorem filterOptions_id (os : List Json) (h : ∀ o ∈ os, cleanOption o = some true) :
    filterOptions os = some os := by
  induction os with
  | nil => rfl
  | cons o os ih =>
    simp only [filterOptions, h o (by simp),
      ih fun x hx => h x (by simp [hx]), Option.map_some']

theorem filterIdx_map (mx : Int) (xs : List Int)
    (h : ∀ i ∈ xs, 0 ≤ i ∧ i ≤ mx) :
    filterIdx mx (xs.map Json.num) = xs := by
  induction xs with
  | nil => rfl
  | cons i xs ih =>
    have hi := h i (by simp)
    have ih2 := ih fun x hx => h x (by simp [hx])
    simp only [filterIdx] at ih2 ⊢
    simp only [List.map_cons, List.filterMap_cons, if_pos hi, ih2]

theorem dedupGo_id (l : List Int) : ∀ seen : List Int, l.Nodup →
    (∀ x ∈ l, x ∉ seen) → dedupGo l seen = l := by
  induction l with
  | nil => intro seen _ _; rfl
  | cons x xs ih =>
    intro seen hn hs
    have hcx : seen.contains x = false := by
      cases hc : seen.contains x
      · rfl
      · exact absurd (by simpa using hc) (hs x (by simp))
    rw [dedupGo, if_neg (by rw [hcx]; exact Bool.false_ne_true)]
    rw [ih (x :: seen) (List.Nodup.of_cons hn) ?hnew]
    case hnew =>
      intro y hy
      intro hmem
      rcases List.mem_cons.mp hmem with rfl | hm
      · exact (List.nodup_cons.mp hn).1 hy
      · exact hs y (by simp [hy]) hm

theorem jsSetDedup_id (l : List Int) (hn : l.Nodup) : jsSetDedup l = l :=
  dedupGo_id l [] hn (by simp)

/-- Conditions on a sanitized question under which the sanitizer maps its
re-serialization back to itself: truthy id and question, 2-4 surviving
(truthy, non-meta, string) options, a non-empty duplicate-free in-bounds
index set, and a non-null category. -/
def goodQuizB (q : QuizQ) : Bool :=
  truthy q.id && truthy q.question &&
  decide (2 ≤ q.options.length) && decide (q.options.length ≤ 4) &&
  q.options.all (fun o => decide (cleanOption o = some true)) &&
  !q.correctOptionIndexes.isEmpty &&
  decide q.correctOptionIndexes.Nodup &&
  q.correctOptionIndexes.all
    (fun i => decide (0 ≤ i) && decide (i ≤ (q.options.length : Int) - 1)) &&
  decide (q.category ≠ Json.null)

/-- Conditions on a normalized summary under which the whole normalizer maps
its `JSON.stringify` output back to itself: truthy string fields, no braces,
backticks or control characters inside any string of the serialized object,
and well-formed quiz questions. -/
def goodSummaryB (s : PediatricSummary) : Bool :=
  truthy s.simpleExplanation && truthy s.expectedCourse &&
  strsAll charBB (summaryToJson s) && strsAll charCtl (summaryToJson s) &&
  (match s.quizQuestions with
   | none => true
   | some qs => qs.all goodQuizB)

theorem questionSurvives_quizToJson (q : QuizQ) (hq : truthy q.question = true)
    (hlen : 2 ≤ q.options.length) : questionSurvives (quizToJson q) = true := by
  simp only [questionSurvives, truthy_quizToJson, quizToJson_question, quizToJson_options,
    truthyO, hq, Bool.true_and, Bool.and_true]
  exact decide_eq_true hlen

theorem rawIndexes_quizToJson (q : QuizQ) :
    rawIndexes (quizToJson q) = some (q.correctOptionIndexes.map Json.num) := by
  simp only [rawIndexes, quizToJson_indexes, truthy]
  rfl

theorem deriveId_quizToJson (q : QuizQ) (hid : truthy q.id = true) :
    deriveId (quizToJson q) = some q.id := by
  simp only [deriveId, quizToJson_id, truthyO, hid]
  rfl

theorem deriveCategory_quizToJson (q : QuizQ) (hc : q.category ≠ Json.null) :
    deriveCategory (quizToJson q) = q.category := by
  simp only [deriveCategory, quizToJson_category]

theorem deriveWeight_quizToJson (q : QuizQ) :
    deriveWeight (quizToJson q) = q.weight := by
  simp only [deriveWeight, quizToJson_weight]

theorem sanitizeOne_quizToJson (q : QuizQ)
    (hid : truthy q.id = true)
    (hopt : ∀ o ∈ q.options, cleanOption o = some true)
    (hlen4 : q.options.length ≤ 4)
    (hne : q.correctOptionIndexes ≠ [])
    (hnd : q.correctOptionIndexes.Nodup)
    (hbound : ∀ i ∈ q.correctOptionIndexes, 0 ≤ i ∧ i ≤ (q.options.length : Int) - 1)
    (hcat : q.category ≠ Json.null) :
    sanitizeOne (quizToJson q) = some q := by
  have htake : q.options.take 4 = q.options := List.take_of_length_le hlen4
  have hfo : filterOptions q.options = some q.options := filterOptions_id _ hopt
  have hri := rawIndexes_quizToJson q
  have hdid := deriveId_quizToJson q hid
  have hcatq := deriveCategory_quizToJson q hcat
  have hwq := deriveWeight_quizToJson q
  have hfi : filterIdx ((q.options.length : Int) - 1) (q.correctOptionIndexes.map Json.num)
      = q.correctOptionIndexes := filterIdx_map _ _ hbound
  have hdd : jsSetDedup q.correctOptionIndexes = q.correctOptionIndexes := jsSetDedup_id _ hnd
  have hieq : q.correctOptionIndexes.isEmpty = false := by
    cases hcc : q.correctOptionIndexes with
    | nil => exact absurd hcc hne
    | cons a t => rfl
  simp only [sanitizeOne, quizToJson_options, hfo, hri, hdid, quizToJson_question,
    htake, hfi, hdd, hieq, quizToJson_explanation, hcatq, hwq]
  rfl

theorem sanitizeQuestions_map (qs : List QuizQ) (hall : qs.all goodQuizB = true) :
    sanitizeQuestions (qs.map quizToJson) = some qs := by
  induction qs with
  | nil => rfl
  | cons q qs ih =>
    have hg : goodQuizB q = true := List.all_eq_true.mp hall q (by simp)
    have hrest : qs.all goodQuizB = true :=
      List.all_eq_true.mpr fun x hx => List.all_eq_true.mp hall x (by simp [hx])
    simp only [goodQuizB, Bool.and_eq_true] at hg
    obtain ⟨⟨⟨⟨⟨⟨⟨⟨h1, h2⟩, h3⟩, h4⟩, h5⟩, h6⟩, h7⟩, h8⟩, h9⟩ := hg
    have h3x : 2 ≤ q.options.length := of_decide_eq_true h3
    have h4x : q.options.length ≤ 4 := of_decide_eq_true h4
    have h5x : ∀ o ∈ q.options, cleanOption o = some true :=
      fun o ho => of_decide_eq_true (List.all_eq_true.mp h5 o ho)
    have h6x : q.correctOptionIndexes ≠ [] := by
      intro he
      rw [he] at h6
      exact absurd h6 (by decide)
    have h7x : q.correctOptionIndexes.Nodup := of_decide_eq_true h7
    have h8x : ∀ i ∈ q.correctOptionIndexes, 0 ≤ i ∧ i ≤ (q.options.length : Int) - 1 := by
      intro i hi
      have hh := List.all_eq_true.mp h8 i hi
      simp only [Bool.and_eq_true, decide_eq_true_eq] at hh
      exact hh
    have h9x : q.category ≠ Json.null := of_decide_eq_true h9
    have hs := questionSurvives_quizToJson q h2 h3x
    have ho := sanitizeOne_quizToJson q h1 h5x h4x h6x h7x h8x h9x
    simp only [List.map_cons, sanitizeQuestions, hs, ho, ih hrest]
    rfl

theorem buildSummary_summaryToJson (s : PediatricSummary)
    (h1 : truthy s.simpleExplanation = true)
    (h2 : truthy s.expectedCourse = true)
    (hq : ∀ qs, s.quizQuestions = some qs → qs.all goodQuizB = true) :
    buildSummary (summaryToJson s) = some s := by
  cases hqq : s.quizQuestions with
  | none =>
    have hq8 : getField (summaryToJson s) "quizQuestions".toList = none := by
      rw [summaryToJson_quiz, hqq]
      rfl
    simp only [buildSummary, hq8, coerceSummary, strFieldOr, arrField,
      summaryToJson_simpleExplanation, summaryToJson_whatToDo, summaryToJson_whatNotToDo,
      summaryToJson_redFlags, summaryToJson_medications, summaryToJson_followUp,
      summaryToJson_expectedCourse, h1, h2]
    rw [← hqq]
    rfl
  | some qs =>
    have hq8 : getField (summaryToJson s) "quizQuestions".toList
        = some (Json.arr (qs.map quizToJson)) := by
      rw [summaryToJson_quiz, hqq]
      rfl
    have hsan := sanitizeQuestions_map qs (hq qs hqq)
    simp only [buildSummary, hq8, hsan, coerceSummary, strFieldOr, arrField,
      summaryToJson_simpleExplanation, summaryToJson_whatToDo, summaryToJson_whatNotToDo,
      summaryToJson_redFlags, summaryToJson_medications, summaryToJson_followUp,
      summaryToJson_expectedCourse, h1, h2]
    rw [← hqq]
    rfl

/-- **C7** (amended).  On well-formed outputs the normalizer *is* idempotent:
for every normalized summary whose string fields are truthy, whose serialized
strings contain no braces, backticks or raw control characters, and whose
quiz questions are well-formed (truthy id and question, 2-4 surviving truthy
non-meta string options, a non-empty duplicate-free in-bounds index set, a
non-null category), re-running the normalizer on the summary's
`JSON.stringify` output returns exactly the same structure.  (The original
unconditional claim is refuted by `c7_idempotence_counterexample`: a literal
`}` inside a re-serialized string field truncates the second brace scan.) -/
theorem c7_idempotence_amended (s : PediatricSummary) (h : goodSummaryB s = true) :
    normalizeResponse (stringifySummary s) = some s := by
  simp only [goodSummaryB, Bool.and_eq_true] at h
  obtain ⟨⟨⟨⟨h1, h2⟩, hbb⟩, hctl⟩, hquiz⟩ := h
  have hq : ∀ qs, s.quizQuestions = some qs → qs.all goodQuizB = true := by
    intro qs hqs
    rw [hqs] at hquiz
    exact hquiz
  obtain ⟨fs, hfs⟩ : ∃ fs, summaryToJson s = Json.obj fs := ⟨_, rfl⟩
  have hbbf : strsAllF charBB fs = true := by
    rw [hfs, strsAll] at hbb
    exact hbb
  have hext : extractJson (stringifySummary s) = .ok (stringifySummary s) := by
    show extractJson (serialize (summaryToJson s)) = .ok (serialize (summaryToJson s))
    rw [hfs]
    exact extractJson_serialize_obj fs hbbf
  have hparse : jsonParse (stringifySummary s) = some (summaryToJson s) :=
    jsonParse_serialize (summaryToJson s) hctl
  have hbuild := buildSummary_summaryToJson s h1 h2 hq
  simp only [normalizeResponse, hext, hparse, hbuild]

/-- A concrete well-formed summary exercising `c7_idempotence_amended`. -/
def c7w : PediatricSummary :=
  ⟨Json.str "All good.".toList,
   [Json.str "Rest.".toList],
   [], [], [], [],
   Json.str "Improves in two days.".toList,
   some [⟨Json.str "q1".toList, Json.str "Which?".toList,
     [Json.str "Call doctor".toList, Json.str "Go to ER".toList],
     [0, 1], Json.str "care".toList, none, 15⟩]⟩

/-- Witness for **C7** (amended): the hypotheses hold at `c7w` and the
normalizer returns `c7w` on its own re-serialized output. -/
theorem c7_idempotence_witness :
    goodSummaryB c7w = true ∧ normalizeResponse (stringifySummary c7w) = some c7w :=
  ⟨by decide, c7_idempotence_amended c7w (by decide)⟩

end PediBrief
